import Mathlib

/-!
Verification of the FullSnap capture/stitch/paginate core.

This file gives a shallow embedding, over `ℚ` and `ℤ`, of the algorithmic
core of the extension:

* `computeCaptureStrategy`, `calculateScrollPositions`, `buildCaptureSegments`
  (background service worker);
* `stitchViewport` (offscreen canvas stitcher), modelled as a fold over the
  destination-row intervals each call draws;
* `appendCanvasToPagedPdf` (viewer paginator), including the pixel analysis
  pipeline `detectBackgroundBrightness` / `buildRowScores` /
  `findAllWhitespaceBands` and the per-page cut-selection loop.

JavaScript `Math.round` is `⌊x + 1/2⌋`, `Math.floor`/`Math.ceil` are `⌊·⌋`/`⌈·⌉`,
and all number arithmetic is modelled exactly in `ℚ`.
-/

namespace FullSnap

/-- JavaScript `Math.round`: round half up. -/
def jsRound (x : ℚ) : ℤ := ⌊x + 1/2⌋

/-- `roundTo(value, decimals)` from `shared/utils.js` / `service-worker.js`:
`Math.round(value * 10^d) / 10^d`. -/
def roundTo (value : ℚ) (decimals : ℕ) : ℚ :=
  (jsRound (value * 10 ^ decimals) : ℚ) / 10 ^ decimals

theorem jsRound_mono {x y : ℚ} (h : x ≤ y) : jsRound x ≤ jsRound y :=
  Int.floor_le_floor (by linarith)

theorem jsRound_le (x : ℚ) : (jsRound x : ℚ) ≤ x + 1/2 := Int.floor_le _

theorem le_jsRound (x : ℚ) : x - 1/2 ≤ (jsRound x : ℚ) := by
  unfold jsRound
  have := Int.sub_one_lt_floor (x + 1/2)
  linarith

theorem jsRound_intCast (n : ℤ) : jsRound (n : ℚ) = n := by
  unfold jsRound
  rw [Int.floor_int_add]
  norm_num

theorem jsRound_nonneg {x : ℚ} (h : 0 ≤ x) : 0 ≤ jsRound x := by
  have : (0:ℤ) = jsRound 0 := by unfold jsRound; norm_num
  rw [this]
  exact jsRound_mono (by linarith)

/-! ### `computeCaptureStrategy` (service-worker.js lines 371–404) -/

/-- `CAPTURE_LIMITS.MAX_CANVAS_DIMENSION` from `shared/constants.js`. -/
def MAX_CANVAS_DIMENSION : ℚ := 16384

/-- `CAPTURE_LIMITS.MAX_CANVAS_AREA` from `shared/constants.js`. -/
def MAX_CANVAS_AREA : ℚ := 100000000

/-- `metrics.devicePixelRatio || 1` (falsy `0` becomes `1`). -/
def normDpr (d : ℚ) : ℚ := if d = 0 then 1 else d

/-- `Math.max(1, metrics.viewportWidth || 1)`. -/
def normWidth (w : ℚ) : ℚ := max 1 (if w = 0 then 1 else w)

/-- `Math.max(1, metrics.viewportHeight || 1)`. -/
def normHeight (h : ℚ) : ℚ := max 1 (if h = 0 then 1 else h)

/-- `effectiveDpr = roundTo(Math.max(0.5, Math.min(dpr, maxDprByWidth)), 3)`. -/
def effectiveDprOf (d w : ℚ) : ℚ :=
  roundTo (max (1/2) (min (normDpr d) (MAX_CANVAS_DIMENSION / normWidth w))) 3

/-- `maxHeightByDimension = Math.floor(MAX_CANVAS_DIMENSION / effectiveDpr)`. -/
def maxHeightByDimensionOf (d w : ℚ) : ℤ :=
  ⌊MAX_CANVAS_DIMENSION / effectiveDprOf d w⌋

/-- `maxHeightByArea = Math.floor(MAX_CANVAS_AREA / (viewportWidth * effectiveDpr * effectiveDpr))`. -/
def maxHeightByAreaOf (d w : ℚ) : ℤ :=
  ⌊MAX_CANVAS_AREA / (normWidth w * effectiveDprOf d w * effectiveDprOf d w)⌋

/-- `maxSegmentHeightCss = Math.max(viewportHeight, Math.min(maxHeightByDimension, maxHeightByArea))`. -/
def maxSegmentHeightCssOf (d w h : ℚ) : ℚ :=
  max (normHeight h) ((min (maxHeightByDimensionOf d w) (maxHeightByAreaOf d w) : ℤ) : ℚ)

/-- Result record of `computeCaptureStrategy`. -/
structure CaptureStrategy where
  effectiveDpr : ℚ
  maxSegmentHeightCss : ℚ
  viewportsPerSegment : ℤ
deriving DecidableEq, Repr

/-- `computeCaptureStrategy(metrics)` from `service-worker.js`. -/
def computeCaptureStrategy (d w h : ℚ) : CaptureStrategy :=
  { effectiveDpr := effectiveDprOf d w
    maxSegmentHeightCss := maxSegmentHeightCssOf d w h
    viewportsPerSegment := max 1 ⌊maxSegmentHeightCssOf d w h / normHeight h⌋ }

theorem normWidth_pos (w : ℚ) : 0 < normWidth w :=
  lt_of_lt_of_le one_pos (le_max_left _ _)

theorem half_le_effectiveDpr (d w : ℚ) : 1/2 ≤ effectiveDprOf d w := by
  unfold effectiveDprOf roundTo
  have h2 : jsRound ((1/2 : ℚ) * 10 ^ 3) = 500 := by
    unfold jsRound; norm_num
  have h1 : (500 : ℤ) ≤ jsRound (max (1/2) (min (normDpr d) (MAX_CANVAS_DIMENSION / normWidth w)) * 10 ^ 3) := by
    rw [← h2]
    apply jsRound_mono
    have := le_max_left (1/2 : ℚ) (min (normDpr d) (MAX_CANVAS_DIMENSION / normWidth w))
    nlinarith
  rw [le_div_iff₀ (by norm_num)]
  calc (1/2 : ℚ) * 10 ^ 3 = ((500 : ℤ) : ℚ) := by norm_num
    _ ≤ _ := by exact_mod_cast h1

theorem effectiveDpr_pos (d w : ℚ) : 0 < effectiveDprOf d w :=
  lt_of_lt_of_le (by norm_num) (half_le_effectiveDpr d w)

theorem roundTo3_le (v : ℚ) : roundTo v 3 ≤ v + 1/2000 := by
  unfold roundTo
  rw [div_le_iff₀ (by norm_num)]
  have := jsRound_le (v * 10 ^ 3)
  push_cast at this ⊢
  linarith

/-- C1, corrected: the width limit holds only up to the slack introduced by
rounding `effectiveDpr` to 3 decimals (at most `viewportWidth / 2000`), and
only when the `0.5` lower clamp on the DPR itself fits the width limit
(`viewportWidth ≤ 2 · MAX_CANVAS_DIMENSION`); the area limit holds provided
the `Math.max(viewportHeight, ·)` floor does not override the computed
height caps. -/
theorem computeCaptureStrategy_limits (d w h : ℚ)
    (hw : normWidth w ≤ 2 * MAX_CANVAS_DIMENSION) :
    (computeCaptureStrategy d w h).effectiveDpr * normWidth w ≤
        MAX_CANVAS_DIMENSION + normWidth w / 2000 ∧
    (normHeight h ≤ ((min (maxHeightByDimensionOf d w) (maxHeightByAreaOf d w) : ℤ) : ℚ) →
      (computeCaptureStrategy d w h).effectiveDpr * normWidth w *
          ((computeCaptureStrategy d w h).effectiveDpr *
            (computeCaptureStrategy d w h).maxSegmentHeightCss) ≤ MAX_CANVAS_AREA) := by
  have hvw : 0 < normWidth w := normWidth_pos w
  have hhalf : (1:ℚ)/2 ≤ MAX_CANVAS_DIMENSION / normWidth w := by
    rw [le_div_iff₀ hvw]
    unfold MAX_CANVAS_DIMENSION at hw ⊢
    linarith
  have hm : max (1/2) (min (normDpr d) (MAX_CANVAS_DIMENSION / normWidth w)) ≤
      MAX_CANVAS_DIMENSION / normWidth w :=
    max_le hhalf (min_le_right _ _)
  have heff : effectiveDprOf d w ≤ MAX_CANVAS_DIMENSION / normWidth w + 1/2000 :=
    le_trans (roundTo3_le _) (by linarith)
  have heffpos := effectiveDpr_pos d w
  constructor
  · show effectiveDprOf d w * normWidth w ≤ _
    calc effectiveDprOf d w * normWidth w
        ≤ (MAX_CANVAS_DIMENSION / normWidth w + 1/2000) * normWidth w := by
          exact mul_le_mul_of_nonneg_right heff (le_of_lt hvw)
      _ = MAX_CANVAS_DIMENSION + normWidth w / 2000 := by
          field_simp
          ring
  · intro hh
    show effectiveDprOf d w * normWidth w *
        (effectiveDprOf d w * maxSegmentHeightCssOf d w h) ≤ MAX_CANVAS_AREA
    have hseg : maxSegmentHeightCssOf d w h =
        ((min (maxHeightByDimensionOf d w) (maxHeightByAreaOf d w) : ℤ) : ℚ) :=
      max_eq_right hh
    have hA : (0:ℚ) < normWidth w * effectiveDprOf d w * effectiveDprOf d w := by positivity
    have hfloor : ((maxHeightByAreaOf d w : ℤ) : ℚ) ≤
        MAX_CANVAS_AREA / (normWidth w * effectiveDprOf d w * effectiveDprOf d w) :=
      Int.floor_le _
    have hmin : ((min (maxHeightByDimensionOf d w) (maxHeightByAreaOf d w) : ℤ) : ℚ) ≤
        ((maxHeightByAreaOf d w : ℤ) : ℚ) := by
      exact_mod_cast min_le_right _ _
    have hle : maxSegmentHeightCssOf d w h ≤
        MAX_CANVAS_AREA / (normWidth w * effectiveDprOf d w * effectiveDprOf d w) := by
      rw [hseg]; exact le_trans hmin hfloor
    rw [le_div_iff₀ hA] at hle
    calc effectiveDprOf d w * normWidth w *
          (effectiveDprOf d w * maxSegmentHeightCssOf d w h)
        = maxSegmentHeightCssOf d w h *
            (normWidth w * effectiveDprOf d w * effectiveDprOf d w) := by ring
      _ ≤ MAX_CANVAS_AREA := hle

/-- C1 counterexample: at `dpr = 2`, `viewportWidth = 10667`,
`viewportHeight = 1000000`, the strategy produced by `computeCaptureStrategy`
violates both raster limits as stated: rounding to 3 decimals pushes
`effectiveDpr·viewportWidth` to `16384.512 > 16384`, and the
`Math.max(viewportHeight, ·)` floor makes the segment's physical area exceed
`MAX_CANVAS_AREA`. -/
theorem computeCaptureStrategy_limits_cex :
    ¬ ((computeCaptureStrategy 2 10667 1000000).effectiveDpr * normWidth 10667 ≤
          MAX_CANVAS_DIMENSION ∧
        (computeCaptureStrategy 2 10667 1000000).effectiveDpr * normWidth 10667 *
            ((computeCaptureStrategy 2 10667 1000000).effectiveDpr *
              (computeCaptureStrategy 2 10667 1000000).maxSegmentHeightCss) ≤
          MAX_CANVAS_AREA) := by
  have heff : (computeCaptureStrategy 2 10667 1000000).effectiveDpr = 192/125 := by
    norm_num [computeCaptureStrategy, effectiveDprOf, roundTo, jsRound, normDpr,
      normWidth, MAX_CANVAS_DIMENSION, min_def, max_def]
  rintro ⟨h1, -⟩
  rw [heff] at h1
  norm_num [normWidth, MAX_CANVAS_DIMENSION, max_def] at h1

/-- Witness for `computeCaptureStrategy_limits` at `dpr = 2`,
`viewportWidth = 1000`, `viewportHeight = 800`. -/
theorem computeCaptureStrategy_limits_witness :
    normWidth 1000 ≤ 2 * MAX_CANVAS_DIMENSION ∧
    ((computeCaptureStrategy 2 1000 800).effectiveDpr * normWidth 1000 ≤
        MAX_CANVAS_DIMENSION + normWidth 1000 / 2000 ∧
      (normHeight 800 ≤ ((min (maxHeightByDimensionOf 2 1000) (maxHeightByAreaOf 2 1000) : ℤ) : ℚ) →
        (computeCaptureStrategy 2 1000 800).effectiveDpr * normWidth 1000 *
            ((computeCaptureStrategy 2 1000 800).effectiveDpr *
              (computeCaptureStrategy 2 1000 800).maxSegmentHeightCss) ≤ MAX_CANVAS_AREA)) :=
  ⟨by norm_num [normWidth, MAX_CANVAS_DIMENSION, max_def],
    computeCaptureStrategy_limits 2 1000 800
      (by norm_num [normWidth, MAX_CANVAS_DIMENSION, max_def])⟩

/-! ### `calculateScrollPositions` (service-worker.js lines 351–369)

The `while` loop is modelled by `scrollLoopPair`, which returns the list of
pushed offsets together with the final value of `y`.  The source's
`[...new Set(positions)].sort((a, b) => a - b)` is `dedup` followed by
`mergeSort`. -/

/-- The `while (y + viewportHeight <= totalHeight)` loop: collects the pushed
offsets and returns the final `y`.  The `0 < viewportHeight` guard makes the
recursion well-founded; the source treats `viewportHeight ≤ 0` as a caller
error. -/
def scrollLoopPair (totalHeight viewportHeight y : ℚ) : List ℚ × ℚ :=
  if h : 0 < viewportHeight ∧ y + viewportHeight ≤ totalHeight then
    let r := scrollLoopPair totalHeight viewportHeight (y + viewportHeight)
    (y :: r.1, r.2)
  else
    ([], y)
termination_by (⌈(totalHeight - y) / viewportHeight⌉).toNat
decreasing_by
  have hv : 0 < viewportHeight := h.1
  have hle : y + viewportHeight ≤ totalHeight := h.2
  have h2 : (totalHeight - (y + viewportHeight)) / viewportHeight =
      (totalHeight - y) / viewportHeight - 1 := by
    field_simp
    ring
  have h3 : (1:ℤ) ≤ ⌈(totalHeight - y) / viewportHeight⌉ := by
    rw [Int.one_le_ceil_iff]
    apply div_pos (by linarith) hv
  rw [h2, Int.ceil_sub_one]
  omega

/-- The `positions` array right before `[...new Set(positions)].sort(...)`:
the loop's pushes, plus the final `totalHeight - viewportHeight` push when the
loop stopped short of `totalHeight`. -/
def scrollPositionsRaw (totalHeight viewportHeight : ℚ) : List ℚ :=
  if (scrollLoopPair totalHeight viewportHeight 0).2 < totalHeight then
    (scrollLoopPair totalHeight viewportHeight 0).1 ++ [totalHeight - viewportHeight]
  else
    (scrollLoopPair totalHeight viewportHeight 0).1

/-- `calculateScrollPositions(totalHeight, viewportHeight)` from
`service-worker.js`. -/
def calculateScrollPositions (totalHeight viewportHeight : ℚ) : List ℚ :=
  if totalHeight ≤ viewportHeight then [0]
  else (scrollPositionsRaw totalHeight viewportHeight).dedup.mergeSort

theorem scrollLoopPair_final_ge (th vh y : ℚ) : y ≤ (scrollLoopPair th vh y).2 := by
  induction y using scrollLoopPair.induct th vh with
  | case1 y h ih =>
      rw [scrollLoopPair, dif_pos h]
      exact le_trans (by linarith [h.1]) ih
  | case2 y h =>
      rw [scrollLoopPair, dif_neg h]

theorem scrollLoopPair_exit (th vh y : ℚ) (hv : 0 < vh) :
    th < (scrollLoopPair th vh y).2 + vh := by
  induction y using scrollLoopPair.induct th vh with
  | case1 y h ih =>
      rw [scrollLoopPair, dif_pos h]
      exact ih
  | case2 y h =>
      rw [scrollLoopPair, dif_neg h]
      push_neg at h
      exact lt_of_not_le fun hc => absurd (h hv) (not_lt.mpr hc)

theorem scrollLoopPair_mem (th vh y : ℚ) :
    ∀ p ∈ (scrollLoopPair th vh y).1,
      y ≤ p ∧ p + vh ≤ th ∧ p + vh ≤ (scrollLoopPair th vh y).2 := by
  induction y using scrollLoopPair.induct th vh with
  | case1 y h ih =>
      rw [scrollLoopPair, dif_pos h]
      intro p hp
      rcases List.mem_cons.mp hp with rfl | hp
      · exact ⟨le_refl _, h.2, le_trans (by linarith [h.1])
          (scrollLoopPair_final_ge th vh (p + vh))⟩
      · obtain ⟨h1, h2, h3⟩ := ih p hp
        exact ⟨by linarith [h.1], h2, h3⟩
  | case2 y h =>
      rw [scrollLoopPair, dif_neg h]
      intro p hp
      simp at hp

theorem scrollLoopPair_chain (th vh y : ℚ) (hv : 0 < vh) :
    List.Chain' (· < ·) (scrollLoopPair th vh y).1 := by
  induction y using scrollLoopPair.induct th vh with
  | case1 y h ih =>
      rw [scrollLoopPair, dif_pos h]
      refine List.chain'_cons'.mpr ⟨?_, ih⟩
      intro p hp
      have hmem := scrollLoopPair_mem th vh (y + vh) p (List.mem_of_mem_head? hp)
      linarith [hmem.1]
  | case2 y h =>
      rw [scrollLoopPair, dif_neg h]
      exact List.chain'_nil

theorem scrollLoopPair_head (th vh y : ℚ) (h : 0 < vh ∧ y + vh ≤ th) :
    (scrollLoopPair th vh y).1.head? = some y := by
  rw [scrollLoopPair, dif_pos h]
  simp

theorem scrollLoopPair_cover (th vh y : ℚ) :
    ∀ x, y ≤ x → x < (scrollLoopPair th vh y).2 →
      ∃ p ∈ (scrollLoopPair th vh y).1, p ≤ x ∧ x < p + vh := by
  induction y using scrollLoopPair.induct th vh with
  | case1 y h ih =>
      rw [scrollLoopPair, dif_pos h]
      intro x hx1 hx2
      by_cases hcase : x < y + vh
      · exact ⟨y, List.mem_cons_self _ _, hx1, hcase⟩
      · push_neg at hcase
        obtain ⟨p, hp, h1, h2⟩ := ih x hcase hx2
        exact ⟨p, List.mem_cons_of_mem _ hp, h1, h2⟩
  | case2 y h =>
      rw [scrollLoopPair, dif_neg h]
      intro x hx1 hx2
      simp at hx1 hx2
      linarith

theorem scrollPositionsRaw_sorted (th vh : ℚ) (hvh : 0 < vh) :
    List.Chain' (· < ·) (scrollPositionsRaw th vh) := by
  unfold scrollPositionsRaw
  split
  case isTrue hlt =>
    rw [List.chain'_append]
    refine ⟨scrollLoopPair_chain th vh 0 hvh, List.chain'_singleton _, ?_⟩
    intro x hx y hy
    simp only [List.head?_cons, Option.mem_def, Option.some.injEq] at hy
    subst hy
    have hmem := scrollLoopPair_mem th vh 0 x (List.mem_of_mem_getLast? hx)
    linarith [hmem.2.2]
  case isFalse =>
    exact scrollLoopPair_chain th vh 0 hvh

theorem scrollPositionsRaw_mem (th vh : ℚ) (hvh : 0 < vh) (hth : vh < th) :
    ∀ p ∈ scrollPositionsRaw th vh, 0 ≤ p ∧ p + vh ≤ th := by
  unfold scrollPositionsRaw
  intro p hp
  have hof : ∀ q ∈ (scrollLoopPair th vh 0).1, 0 ≤ q ∧ q + vh ≤ th := by
    intro q hq
    have := scrollLoopPair_mem th vh 0 q hq
    exact ⟨this.1, this.2.1⟩
  split at hp
  case isTrue =>
    rcases List.mem_append.mp hp with h1 | h1
    · exact hof p h1
    · simp at h1
      subst h1
      constructor <;> linarith
  case isFalse =>
    exact hof p hp

theorem scrollPositionsRaw_head (th vh : ℚ) (hvh : 0 < vh) (hth : vh < th) :
    (scrollPositionsRaw th vh).head? = some 0 := by
  have hcond : 0 < vh ∧ 0 + vh ≤ th := ⟨hvh, by linarith⟩
  have hhead := scrollLoopPair_head th vh 0 hcond
  have hne : (scrollLoopPair th vh 0).1 ≠ [] := by
    intro hnil
    rw [hnil] at hhead
    simp at hhead
  unfold scrollPositionsRaw
  split
  case isTrue => rw [List.head?_append_of_ne_nil _ hne]; exact hhead
  case isFalse => exact hhead

theorem scrollPositionsRaw_cover (th vh : ℚ) (hvh : 0 < vh) :
    ∀ x, 0 ≤ x → x < th → ∃ p ∈ scrollPositionsRaw th vh, p ≤ x ∧ x < p + vh := by
  intro x hx0 hxth
  unfold scrollPositionsRaw
  by_cases hfin : x < (scrollLoopPair th vh 0).2
  · obtain ⟨p, hp, h1, h2⟩ := scrollLoopPair_cover th vh 0 x hx0 hfin
    split
    next => exact ⟨p, List.mem_append_left _ hp, h1, h2⟩
    next => exact ⟨p, hp, h1, h2⟩
  · push_neg at hfin
    have hlt : (scrollLoopPair th vh 0).2 < th := lt_of_le_of_lt hfin hxth
    rw [if_pos hlt]
    refine ⟨th - vh, List.mem_append_right _ (List.mem_singleton_self _), ?_, by linarith⟩
    have hexit := scrollLoopPair_exit th vh 0 hvh
    linarith

/-- C2, corrected: `calculateScrollPositions` returns a strictly increasing
sequence starting at `0` whose windows cover `[0, totalHeight)`; every offset
lies in `[0, max 0 (totalHeight - viewportHeight)]` and its window inside
`[0, max totalHeight viewportHeight)`; when `totalHeight ≤ viewportHeight`
the result is `[0]`.  (As literally stated the claim fails for
`totalHeight < viewportHeight`, where the single offset `0` exceeds
`totalHeight - viewportHeight < 0` and its window overhangs `totalHeight`.) -/
theorem calculateScrollPositions_spec (th vh : ℚ) (hth : 0 < th) (hvh : 0 < vh) :
    (calculateScrollPositions th vh).head? = some 0 ∧
    List.Chain' (· < ·) (calculateScrollPositions th vh) ∧
    (∀ p ∈ calculateScrollPositions th vh,
      0 ≤ p ∧ p ≤ max 0 (th - vh) ∧ p + vh ≤ max th vh) ∧
    (∀ x, 0 ≤ x → x < th → ∃ p ∈ calculateScrollPositions th vh, p ≤ x ∧ x < p + vh) ∧
    (th ≤ vh → calculateScrollPositions th vh = [0]) := by
  by_cases hc : th ≤ vh
  · rw [calculateScrollPositions, if_pos hc]
    refine ⟨rfl, List.chain'_singleton _, ?_, ?_, fun _ => rfl⟩
    · intro p hp
      simp at hp
      subst hp
      exact ⟨le_refl _, le_max_left _ _, by simp⟩
    · intro x hx0 hxth
      exact ⟨0, List.mem_singleton_self _, hx0, by rw [zero_add]; linarith⟩
  · push_neg at hc
    rw [calculateScrollPositions, if_neg (not_le.mpr hc)]
    have hchain : List.Chain' (· < ·) (scrollPositionsRaw th vh) :=
      scrollPositionsRaw_sorted th vh hvh
    have hsorted : (scrollPositionsRaw th vh).Sorted (· < ·) :=
      List.chain'_iff_pairwise.mp hchain
    have hnodup : (scrollPositionsRaw th vh).Nodup := hsorted.nodup
    have hdedup : (scrollPositionsRaw th vh).dedup = scrollPositionsRaw th vh :=
      List.dedup_eq_self.mpr hnodup
    have hfix : (scrollPositionsRaw th vh).dedup.mergeSort = scrollPositionsRaw th vh := by
      rw [hdedup]
      exact List.mergeSort_eq_self (hsorted.imp le_of_lt)
    rw [hfix]
    refine ⟨scrollPositionsRaw_head th vh hvh hc, hchain, ?_,
      scrollPositionsRaw_cover th vh hvh, fun hcon => absurd hcon (not_le.mpr hc)⟩
    intro p hp
    obtain ⟨h1, h2⟩ := scrollPositionsRaw_mem th vh hvh hc p hp
    refine ⟨h1, le_max_of_le_right (by linarith), le_max_of_le_left (by linarith)⟩

/-- C2 counterexample: for `totalHeight = 1 < viewportHeight = 2` the result
is `[0]`, whose only offset `0` exceeds `totalHeight - viewportHeight = -1`,
contradicting the claim's offset bound. -/
theorem calculateScrollPositions_cex :
    ¬ (∀ p ∈ calculateScrollPositions 1 2, p ≤ (1:ℚ) - 2) := by
  intro hall
  have h0 : (0:ℚ) ∈ calculateScrollPositions 1 2 := by
    rw [calculateScrollPositions, if_pos (by norm_num)]
    exact List.mem_singleton_self _
  have := hall 0 h0
  norm_num at this

/-- Witness for `calculateScrollPositions_spec` at
`totalHeight = 2500`, `viewportHeight = 1000`. -/
theorem calculateScrollPositions_spec_witness :
    (0:ℚ) < 2500 ∧ (0:ℚ) < 1000 ∧
    ((calculateScrollPositions 2500 1000).head? = some 0 ∧
      List.Chain' (· < ·) (calculateScrollPositions 2500 1000) ∧
      (∀ p ∈ calculateScrollPositions 2500 1000,
        0 ≤ p ∧ p ≤ max 0 ((2500:ℚ) - 1000) ∧ p + 1000 ≤ max (2500:ℚ) 1000) ∧
      (∀ x, 0 ≤ x → x < 2500 →
        ∃ p ∈ calculateScrollPositions 2500 1000, p ≤ x ∧ x < p + 1000) ∧
      ((2500:ℚ) ≤ 1000 → calculateScrollPositions 2500 1000 = [0])) :=
  ⟨by norm_num, by norm_num, calculateScrollPositions_spec 2500 1000 (by norm_num) (by norm_num)⟩

/-! ### `buildCaptureSegments` (service-worker.js lines 406–425) -/

/-- One capture segment, as built by `buildCaptureSegments`. -/
structure Segment where
  index : ℕ
  startPositionIndex : ℕ
  positions : List ℚ
  startY : ℚ
  endY : ℚ
  height : ℚ
deriving DecidableEq, Repr

/-- The `for (let i = 0; i < positions.length; i += viewportsPerSegment)`
loop's `positions.slice(i, i + viewportsPerSegment)` chunking. -/
def chunkPositions (vps : ℕ) : List ℚ → List (List ℚ)
  | [] => []
  | p :: rest =>
      (p :: rest.take (vps - 1)) :: chunkPositions vps (rest.drop (vps - 1))
termination_by l => l.length
decreasing_by
  simp only [List.length_cons, List.length_drop]
  omega

/-- Builds the `Segment` records for a chunk list; `idx` and `posIdx` track
`segments.length` and `i` of the source loop. -/
def segmentsFromChunks (vh th : ℚ) : List (List ℚ) → ℕ → ℕ → List Segment
  | [], _, _ => []
  | c :: cs, idx, posIdx =>
      { index := idx
        startPositionIndex := posIdx
        positions := c
        startY := c.headI
        endY := min th (c.getLastD 0 + vh)
        height := min th (c.getLastD 0 + vh) - c.headI } ::
        segmentsFromChunks vh th cs (idx + 1) (posIdx + c.length)

/-- `buildCaptureSegments(positions, viewportHeight, totalHeight,
viewportsPerSegment)` from `service-worker.js`. -/
def buildCaptureSegments (positions : List ℚ) (vh th : ℚ) (vps : ℕ) : List Segment :=
  segmentsFromChunks vh th (chunkPositions vps positions) 0 0

theorem chunkPositions_join (vps : ℕ) (l : List ℚ) :
    (chunkPositions vps l).flatten = l := by
  induction l using chunkPositions.induct vps with
  | case1 => rw [chunkPositions]; rfl
  | case2 p rest ih =>
      rw [chunkPositions]
      simp only [List.flatten_cons, ih, List.cons_append, List.take_append_drop]

theorem chunkPositions_ne_nil (vps : ℕ) (l : List ℚ) :
    ∀ c ∈ chunkPositions vps l, c ≠ [] := by
  induction l using chunkPositions.induct vps with
  | case1 => rw [chunkPositions]; intro c hc; simp at hc
  | case2 p rest ih =>
      rw [chunkPositions]
      intro c hc
      rcases List.mem_cons.mp hc with rfl | hc
      · simp
      · exact ih c hc

theorem chunkPositions_eq_nil_iff (vps : ℕ) (l : List ℚ) :
    chunkPositions vps l = [] ↔ l = [] := by
  cases l with
  | nil => rw [chunkPositions]; simp
  | cons p rest => rw [chunkPositions]; simp

theorem chunkPositions_sorted {R : ℚ → ℚ → Prop} (vps : ℕ) (l : List ℚ)
    (h : List.Chain' R l) : ∀ c ∈ chunkPositions vps l, List.Chain' R c := by
  induction l using chunkPositions.induct vps with
  | case1 => rw [chunkPositions]; intro c hc; simp at hc
  | case2 p rest ih =>
      rw [chunkPositions]
      intro c hc
      rcases List.mem_cons.mp hc with rfl | hc
      · have : p :: rest.take (vps - 1) = (p :: rest).take (vps - 1 + 1) := by
          simp [List.take_cons]
        rw [this]
        exact h.take _
      · exact ih (h.tail.drop _) c hc

theorem chain'_take_last_head {R : ℚ → ℚ → Prop} :
    ∀ (k : ℕ) (p : ℚ) (rest : List ℚ), List.Chain' R (p :: rest) →
      rest.drop k ≠ [] →
      R ((p :: rest.take k).getLastD 0) ((rest.drop k).headI) := by
  intro k
  induction k with
  | zero =>
      intro p rest hchain hne
      cases rest with
      | nil => simp at hne
      | cons r t =>
          simp only [List.take_zero, List.drop_zero, List.headI_cons]
          show R ([p].getLastD 0) r
          simp only [List.getLastD_cons, List.getLastD_nil]
          exact (List.chain'_cons.mp hchain).1
  | succ k ih =>
      intro p rest hchain hne
      cases rest with
      | nil => simp at hne
      | cons r t =>
          simp only [List.take_succ_cons, List.drop_succ_cons] at hne ⊢
          have htail : List.Chain' R (r :: t) := (List.chain'_cons.mp hchain).2
          have := ih r t htail hne
          simpa using this

theorem chunkPositions_boundary {R : ℚ → ℚ → Prop} (vps : ℕ) (l : List ℚ)
    (h : List.Chain' R l) :
    List.Chain' (fun c d : List ℚ => R (c.getLastD 0) d.headI)
      (chunkPositions vps l) := by
  induction l using chunkPositions.induct vps with
  | case1 => rw [chunkPositions]; exact List.chain'_nil
  | case2 p rest ih =>
      rw [chunkPositions]
      have hdchain : List.Chain' R (rest.drop (vps - 1)) := by
        have htail : List.Chain' R rest := h.tail
        exact htail.drop _
      refine List.chain'_cons'.mpr ⟨?_, ih hdchain⟩
      intro d hd
      have hne : chunkPositions vps (rest.drop (vps - 1)) ≠ [] := by
        intro hnil
        rw [hnil] at hd
        simp at hd
      have hlne : rest.drop (vps - 1) ≠ [] :=
        fun hnil => hne ((chunkPositions_eq_nil_iff _ _).mpr hnil)
      -- head chunk of the remainder starts with the remainder's head
      have hdhead : d.headI = (rest.drop (vps - 1)).headI := by
        cases hrem : rest.drop (vps - 1) with
        | nil => exact absurd hrem hlne
        | cons q t =>
            rw [hrem] at hd
            rw [chunkPositions] at hd
            simp only [List.head?_cons, Option.mem_def, Option.some.injEq] at hd
            subst hd
            simp
      rw [hdhead]
      exact chain'_take_last_head (vps - 1) p rest h hlne

theorem getLastD_congr {α : Type} [Inhabited α] {l : List α} (h : l ≠ []) (d d' : α) :
    l.getLastD d = l.getLastD d' := by
  rw [List.getLastD_eq_getLast?, List.getLastD_eq_getLast?]
  cases hl : l.getLast? with
  | none =>
      have := List.getLast?_isSome (l := l)
      rw [hl] at this
      simp [h] at this
  | some a => rfl

theorem getLastD_drop (k : ℕ) :
    ∀ l : List ℚ, l.drop k ≠ [] → (l.drop k).getLastD 0 = l.getLastD 0 := by
  induction k with
  | zero => intro l _; rw [List.drop_zero]
  | succ k ih =>
      intro l h
      cases l with
      | nil => simp at h
      | cons a t =>
          rw [List.drop_succ_cons] at h ⊢
          rw [ih t h, List.getLastD_cons]
          have htne : t ≠ [] := by
            intro hn
            rw [hn] at h
            simp at h
          exact getLastD_congr htne 0 a

theorem chunkPositions_last (vps : ℕ) (l : List ℚ) (hne : l ≠ []) :
    ((chunkPositions vps l).getLastD []).getLastD 0 = l.getLastD 0 := by
  induction l using chunkPositions.induct vps with
  | case1 => exact absurd rfl hne
  | case2 p rest ih =>
      rw [chunkPositions]
      by_cases hrem : rest.drop (vps - 1) = []
      · rw [hrem, chunkPositions]
        have htake : rest.take (vps - 1) = rest := by
          have hlen := List.length_drop (vps - 1) rest
          rw [hrem] at hlen
          simp only [List.length_nil] at hlen
          exact List.take_of_length_le (by omega)
        simp [htake]
      · have hcne : chunkPositions vps (rest.drop (vps - 1)) ≠ [] :=
          fun hnil => hrem ((chunkPositions_eq_nil_iff _ _).mp hnil)
        rw [List.getLastD_cons,
          getLastD_congr hcne (p :: rest.take (vps - 1)) [], ih hrem,
          getLastD_drop _ rest hrem, List.getLastD_cons]
        have hrne : rest ≠ [] := by
          intro hn
          rw [hn] at hrem
          simp at hrem
        exact getLastD_congr hrne 0 p

theorem headI_le_getLastD :
    ∀ c : List ℚ, List.Chain' (· ≤ ·) c → c ≠ [] → c.headI ≤ c.getLastD 0 := by
  intro c
  induction c with
  | nil => intro _ h; exact absurd rfl h
  | cons x t ih =>
      intro hchain _
      cases t with
      | nil => simp [List.getLastD_cons]
      | cons y t' =>
          have hxy : x ≤ y := (List.chain'_cons.mp hchain).1
          have htail := (List.chain'_cons.mp hchain).2
          have := ih htail (by simp)
          simp only [List.headI_cons] at this
          rw [List.headI_cons, List.getLastD_cons]
          calc x ≤ y := hxy
            _ ≤ (y :: t').getLastD 0 := by simpa [List.getLastD_cons] using this
            _ = (y :: t').getLastD x := getLastD_congr (by simp) 0 x

theorem segmentsFromChunks_positions (vh th : ℚ) :
    ∀ (cs : List (List ℚ)) (i j : ℕ),
      (segmentsFromChunks vh th cs i j).map (·.positions) = cs := by
  intro cs
  induction cs with
  | nil => intro i j; rw [segmentsFromChunks]; rfl
  | cons c cs ih =>
      intro i j
      rw [segmentsFromChunks]
      simp only [List.map_cons, ih]

theorem segmentsFromChunks_mem (vh th : ℚ) :
    ∀ (cs : List (List ℚ)) (i j : ℕ), ∀ s ∈ segmentsFromChunks vh th cs i j,
      ∃ c ∈ cs, s.positions = c ∧ s.startY = c.headI ∧
        s.endY = min th (c.getLastD 0 + vh) ∧ s.height = s.endY - s.startY := by
  intro cs
  induction cs with
  | nil => intro i j s hs; rw [segmentsFromChunks] at hs; simp at hs
  | cons c cs ih =>
      intro i j s hs
      rw [segmentsFromChunks] at hs
      rcases List.mem_cons.mp hs with rfl | hs
      · exact ⟨c, List.mem_cons_self _ _, rfl, rfl, rfl, rfl⟩
      · obtain ⟨c', hc', h⟩ := ih _ _ s hs
        exact ⟨c', List.mem_cons_of_mem _ hc', h⟩

theorem segmentsFromChunks_head_startY (vh th : ℚ) (c : List ℚ)
    (cs : List (List ℚ)) (i j : ℕ) :
    ((segmentsFromChunks vh th (c :: cs) i j).map (·.startY)).head? = some c.headI := by
  rw [segmentsFromChunks]
  rfl

theorem segmentsFromChunks_last_endY (vh th : ℚ) :
    ∀ (cs : List (List ℚ)) (i j : ℕ), cs ≠ [] →
      ((segmentsFromChunks vh th cs i j).map (·.endY)).getLast? =
        some (min th ((cs.getLastD []).getLastD 0 + vh)) := by
  intro cs
  induction cs with
  | nil => intro i j h; exact absurd rfl h
  | cons c cs ih =>
      intro i j _
      cases cs with
      | nil =>
          rw [segmentsFromChunks, segmentsFromChunks]
          simp [List.getLastD_cons]
      | cons c' cs' =>
          have hih := ih (i + 1) (j + c.length) (by simp)
          rw [segmentsFromChunks]
          rw [List.map_cons]
          rw [segmentsFromChunks] at hih ⊢
          rw [List.map_cons] at hih ⊢
          rw [List.getLast?_cons_cons, hih, List.getLastD_cons, List.getLastD_cons,
            List.getLastD_cons]

theorem segmentsFromChunks_chain (vh th : ℚ) :
    ∀ (cs : List (List ℚ)) (i j : ℕ),
      List.Chain' (fun c d : List ℚ => d.headI ≤ min th (c.getLastD 0 + vh)) cs →
      List.Chain' (fun s t : Segment => t.startY ≤ s.endY)
        (segmentsFromChunks vh th cs i j) := by
  intro cs
  induction cs with
  | nil => intro i j _; rw [segmentsFromChunks]; exact List.chain'_nil
  | cons c cs ih =>
      intro i j hchain
      rw [segmentsFromChunks]
      refine List.chain'_cons'.mpr ⟨?_, ih _ _ hchain.tail⟩
      intro t ht
      cases cs with
      | nil => rw [segmentsFromChunks] at ht; simp at ht
      | cons c' cs' =>
          rw [segmentsFromChunks] at ht
          simp only [List.head?_cons, Option.mem_def, Option.some.injEq] at ht
          subst ht
          simpa using (List.chain'_cons.mp hchain).1

/-- C3, corrected: the segments' `positions` lists do concatenate back to the
input, the segments' intervals have no gaps (each segment starts at or before
the previous segment's end), the first interval starts at `0` and the last
ends at `totalHeight` — but consecutive intervals may *overlap*: the clamp
`endY = min(totalHeight, last + viewportHeight)` can reach past the next
chunk's first (possibly re-scrolled) offset, as the spec's own
`[0, 1000, 1500]` example shows. -/
theorem buildCaptureSegments_spec (pos : List ℚ) (vh th : ℚ) (vps : ℕ)
    (hvh : 0 < vh) (hne : pos ≠ []) (hhead : pos.headI = 0)
    (hchain : List.Chain' (fun a b : ℚ => a < b ∧ b ≤ a + vh) pos)
    (hmem : ∀ p ∈ pos, 0 ≤ p ∧ p + vh ≤ th)
    (hlast : th ≤ pos.getLastD 0 + vh) :
    ((buildCaptureSegments pos vh th vps).map (·.positions)).flatten = pos ∧
    ((buildCaptureSegments pos vh th vps).map (·.startY)).head? = some 0 ∧
    ((buildCaptureSegments pos vh th vps).map (·.endY)).getLast? = some th ∧
    List.Chain' (fun s t : Segment => t.startY ≤ s.endY)
      (buildCaptureSegments pos vh th vps) ∧
    (∀ s ∈ buildCaptureSegments pos vh th vps,
      0 ≤ s.startY ∧ s.startY ≤ s.endY ∧ s.endY ≤ th ∧
        s.height = s.endY - s.startY) := by
  have hflat : (chunkPositions vps pos).flatten = pos := chunkPositions_join vps pos
  have hcne : ∀ c ∈ chunkPositions vps pos, c ≠ [] := chunkPositions_ne_nil vps pos
  have hcmem : ∀ c ∈ chunkPositions vps pos, ∀ x ∈ c, x ∈ pos := by
    intro c hc x hx
    rw [← hflat]
    exact List.mem_flatten.mpr ⟨c, hc, hx⟩
  have hcsorted := chunkPositions_sorted (R := fun a b : ℚ => a < b ∧ b ≤ a + vh)
    vps pos hchain
  have hheadI_le_th : ∀ c ∈ chunkPositions vps pos, c.headI ≤ th := by
    intro c hc
    cases hcase : c with
    | nil => exact absurd hcase (hcne c hc)
    | cons x t =>
        have hx : x ∈ pos := hcmem c hc x (by rw [hcase]; exact List.mem_cons_self _ _)
        have := (hmem x hx).2
        simp only [List.headI_cons]
        linarith
  refine ⟨?_, ?_, ?_, ?_, ?_⟩
  · unfold buildCaptureSegments
    rw [segmentsFromChunks_positions]
    exact hflat
  · unfold buildCaptureSegments
    cases hp : pos with
    | nil => exact absurd hp hne
    | cons p rest =>
        rw [chunkPositions, segmentsFromChunks_head_startY]
        rw [hp] at hhead
        simp only [List.headI_cons] at hhead ⊢
        rw [hhead]
  · unfold buildCaptureSegments
    have hcsne : chunkPositions vps pos ≠ [] :=
      fun hnil => hne ((chunkPositions_eq_nil_iff _ _).mp hnil)
    rw [segmentsFromChunks_last_endY vh th _ 0 0 hcsne,
      chunkPositions_last vps pos hne]
    rw [min_eq_left hlast]
  · unfold buildCaptureSegments
    apply segmentsFromChunks_chain
    have hb : List.Chain' (fun c d : List ℚ => d.headI ≤ c.getLastD 0 + vh)
        (chunkPositions vps pos) :=
      chunkPositions_boundary vps pos (hchain.imp fun a b h => h.2)
    rw [List.chain'_iff_get] at hb ⊢
    intro i hi
    refine le_min ?_ (hb i hi)
    apply hheadI_le_th
    exact List.get_mem _ _ _
  · unfold buildCaptureSegments
    intro s hs
    obtain ⟨c, hc, -, hsY, heY, hh⟩ := segmentsFromChunks_mem vh th _ 0 0 s hs
    have hcne' : c ≠ [] := hcne c hc
    have hheadmem : c.headI ∈ c := by
      cases hcase : c with
      | nil => exact absurd hcase hcne'
      | cons x t => simp
    have hpos : c.headI ∈ pos := hcmem c hc _ hheadmem
    have h0 : 0 ≤ c.headI := (hmem _ hpos).1
    have hle : c.headI ≤ c.getLastD 0 :=
      headI_le_getLastD c ((hcsorted c hc).imp fun a b h => h.1.le) hcne'
    refine ⟨by rw [hsY]; exact h0, ?_, by rw [heY]; exact min_le_left _ _, hh⟩
    rw [hsY, heY]
    exact le_min (hheadI_le_th c hc) (by linarith)

/-- C3 counterexample: the planner-produced `ScrollPosition` sequence
`[0, 1000, 1500]` (with `viewportHeight = 1000`, `totalHeight = 2500`) chunked
two viewports per segment yields intervals `[0, 2000]` and `[1500, 2500]`,
which overlap: segment 1 starts at `1500 < 2000`, refuting the claimed
non-overlap of segment intervals. -/
theorem buildCaptureSegments_cex :
    List.Chain' (fun a b : ℚ => a < b ∧ b ≤ a + 1000) [0, 1000, 1500] ∧
    (∀ p ∈ [(0:ℚ), 1000, 1500], 0 ≤ p ∧ p + 1000 ≤ 2500) ∧
    ¬ List.Chain' (fun s t : Segment => s.endY ≤ t.startY)
        (buildCaptureSegments [0, 1000, 1500] 1000 2500 2) := by
  refine ⟨by norm_num [List.chain'_cons], by norm_num, ?_⟩
  intro hchain
  simp only [buildCaptureSegments, chunkPositions, segmentsFromChunks,
    List.take, List.drop, List.chain'_cons, List.chain'_singleton, and_true] at hchain
  norm_num [min_def] at hchain

/-- Witness for `buildCaptureSegments_spec` at the spec's end-to-end example
`positions = [0, 1000, 1500]`, `viewportHeight = 1000`, `totalHeight = 2500`,
`viewportsPerSegment = 2`. -/
theorem buildCaptureSegments_spec_witness :
    ((buildCaptureSegments [0, 1000, 1500] 1000 2500 2).map (·.positions)).flatten =
        [0, 1000, 1500] ∧
    ((buildCaptureSegments [0, 1000, 1500] 1000 2500 2).map (·.startY)).head? = some 0 ∧
    ((buildCaptureSegments [0, 1000, 1500] 1000 2500 2).map (·.endY)).getLast? =
        some 2500 ∧
    List.Chain' (fun s t : Segment => t.startY ≤ s.endY)
      (buildCaptureSegments [0, 1000, 1500] 1000 2500 2) ∧
    (∀ s ∈ buildCaptureSegments [0, 1000, 1500] 1000 2500 2,
      0 ≤ s.startY ∧ s.startY ≤ s.endY ∧ s.endY ≤ 2500 ∧
        s.height = s.endY - s.startY) :=
  buildCaptureSegments_spec [0, 1000, 1500] 1000 2500 2
    (by norm_num) (by simp) (by norm_num)
    (by norm_num [List.chain'_cons]) (by norm_num)
    (by norm_num [List.getLastD_cons])

/-! ### `stitchViewport` (offscreen document, lines 96–158)

Only the destination-row geometry matters for the stitching post-condition,
so a call is modelled by the half-open interval of canvas rows its
`drawImage` writes (`none` when the `srcDrawH > 0 && destDrawH > 0` guard
suppresses drawing), together with the updated `_lastDrawnBottomY`. -/

/-- One viewport capture handed to `stitchViewport`: its scroll offset
(CSS px, segment-local) and the loaded image's `naturalHeight`. -/
structure ViewportCapture where
  yOffset : ℚ
  srcH : ℤ
deriving DecidableEq, Repr

/-- `Math.round(yOffset * canvasScale)` — the capture's nominal start row. -/
def drawYOf (scale : ℚ) (c : ViewportCapture) : ℤ := jsRound (c.yOffset * scale)

/-- `Math.round(viewportHeight * canvasScale)` — the height drawn per call. -/
def drawHeightOf (scale vh : ℚ) : ℤ := jsRound (vh * scale)

/-- The capture's physical window `[drawY, drawY + drawHeight)`. -/
def stitchWindow (scale vh : ℚ) (c : ViewportCapture) : ℤ × ℤ :=
  (drawYOf scale c, drawYOf scale c + drawHeightOf scale vh)

/-- One `stitchViewport` call: returns the new `_lastDrawnBottomY` and the
written destination interval.  (The source's single `if (!isFirst && yOffset > 0)
{ if (alreadyDrawnUpTo > expectedPosNoOverlap) ... }` is rendered as two `if`s
on the combined condition.) -/
def stitchStep (scale vh : ℚ) (isFirst : Bool) (lastBottom : ℤ)
    (c : ViewportCapture) : ℤ × Option (ℤ × ℤ) :=
  let drawY := drawYOf scale c
  let drawHeight := drawHeightOf scale vh
  let srcCropY : ℤ :=
    if isFirst = false ∧ 0 < c.yOffset ∧ drawY < lastBottom then
      jsRound (((lastBottom - drawY : ℤ) : ℚ) / (drawHeight : ℚ) * (c.srcH : ℚ))
    else 0
  let destCropY : ℤ :=
    if isFirst = false ∧ 0 < c.yOffset ∧ drawY < lastBottom then lastBottom
    else drawY
  let srcDrawH := c.srcH - srcCropY
  let destDrawH := drawHeight - (destCropY - drawY)
  (destCropY + destDrawH,
    if 0 < srcDrawH ∧ 0 < destDrawH then some (destCropY, destCropY + destDrawH)
    else none)

/-- Folds `stitchViewport` over a list of captures, collecting each call's
written interval. -/
def stitchRun (scale vh : ℚ) (lastBottom : ℤ) (isFirst : Bool) :
    List ViewportCapture → ℤ × List (Option (ℤ × ℤ))
  | [] => (lastBottom, [])
  | c :: rest =>
      let r := stitchStep scale vh isFirst lastBottom c
      let rr := stitchRun scale vh r.1 false rest
      (rr.1, r.2 :: rr.2)

/-- The written intervals of a whole segment's stitching (fresh canvas:
`_lastDrawnBottomY = 0`, first call has `isFirst = true`). -/
def stitchViewportAll (scale vh : ℚ) (caps : List ViewportCapture) :
    List (Option (ℤ × ℤ)) :=
  (stitchRun scale vh 0 true caps).2

/-- Whether row `r` lies in a written interval. -/
def inIntervalB (r : ℤ) : Option (ℤ × ℤ) → Bool
  | none => false
  | some (a, b) => decide (a ≤ r ∧ r < b)

/-- How many of the calls wrote row `r`. -/
def writtenCount (r : ℤ) (ws : List (Option (ℤ × ℤ))) : ℕ :=
  ws.countP (inIntervalB r)

/-- Index of the call that wrote row `r` (first hit; the intervals written
are pairwise disjoint, so the hit is unique when it exists). -/
def writtenBy (r : ℤ) : List (Option (ℤ × ℤ)) → Option ℕ
  | [] => none
  | w :: ws => if inIntervalB r w then some 0 else (writtenBy r ws).map (· + 1)

/-- Index of the first capture whose window `[drawY, drawY + drawHeight)`
covers row `r`. -/
def firstCoverIdx (scale vh : ℚ) (r : ℤ) : List ViewportCapture → Option ℕ
  | [] => none
  | c :: t =>
      if inIntervalB r (some (stitchWindow scale vh c)) then some 0
      else (firstCoverIdx scale vh r t).map (· + 1)

theorem stitchStep_eq (scale vh : ℚ) (c : ViewportCapture) (prevY : ℤ)
    (hy : 0 < c.yOffset)
    (hDh : 1 ≤ drawHeightOf scale vh)
    (hsrc : drawHeightOf scale vh ≤ c.srcH)
    (hlo : prevY ≤ drawYOf scale c)
    (hhi : drawYOf scale c ≤ prevY + drawHeightOf scale vh) :
    stitchStep scale vh false (prevY + drawHeightOf scale vh) c =
      (drawYOf scale c + drawHeightOf scale vh,
        if prevY < drawYOf scale c then
          some (prevY + drawHeightOf scale vh,
            drawYOf scale c + drawHeightOf scale vh)
        else none) := by
  set d := drawYOf scale c with hd
  set Dh := drawHeightOf scale vh with hDhdef
  simp only [stitchStep, ← hd, ← hDhdef, eq_self_iff_true, true_and]
  by_cases hcase : d < prevY + Dh
  · have hcond : (0 < c.yOffset ∧ d < prevY + Dh) := ⟨hy, hcase⟩
    simp only [if_pos hcond]
    by_cases hstrict : prevY < d
    · have hsrcCrop : jsRound (((prevY + Dh - d : ℤ) : ℚ) / (Dh : ℚ) * (c.srcH : ℚ)) ≤
          c.srcH - 1 := by
        have hDh0 : (0:ℚ) < (Dh : ℚ) := by
          have h0 : (0:ℤ) < Dh := by omega
          exact_mod_cast h0
        have hkey : ((prevY + Dh - d : ℤ) : ℚ) / (Dh : ℚ) * (c.srcH : ℚ) ≤
            ((c.srcH - 1 : ℤ) : ℚ) := by
          rw [div_mul_eq_mul_div, div_le_iff₀ hDh0]
          have hov : ((prevY + Dh - d : ℤ) : ℚ) ≤ (Dh : ℚ) - 1 := by
            have h1 : prevY + Dh - d ≤ Dh - 1 := by omega
            have h2 : ((prevY + Dh - d : ℤ) : ℚ) ≤ ((Dh - 1 : ℤ) : ℚ) := by
              exact_mod_cast h1
            push_cast at h2 ⊢
            linarith
          have hsrcQ : ((Dh : ℤ) : ℚ) ≤ (c.srcH : ℚ) := by exact_mod_cast hsrc
          have hsrcpos : (0:ℚ) < (c.srcH : ℚ) := by
            have h2 : (0:ℤ) < c.srcH := by omega
            exact_mod_cast h2
          push_cast at hov hsrcQ ⊢
          nlinarith
        calc jsRound _ ≤ jsRound ((c.srcH - 1 : ℤ) : ℚ) := jsRound_mono hkey
          _ = c.srcH - 1 := jsRound_intCast _
      have hsrcDraw : 0 < c.srcH -
          jsRound (((prevY + Dh - d : ℤ) : ℚ) / (Dh : ℚ) * (c.srcH : ℚ)) := by
        omega
      rw [if_pos ⟨hsrcDraw, by omega⟩, if_pos hstrict,
        show prevY + Dh + (Dh - (prevY + Dh - d)) = d + Dh from by ring]
    · rw [if_neg (by omega), if_neg hstrict,
        show prevY + Dh + (Dh - (prevY + Dh - d)) = d + Dh from by omega]
  · have hcondneg : ¬ (0 < c.yOffset ∧ d < prevY + Dh) := fun hcon => hcase hcon.2
    simp only [if_neg hcondneg]
    have hdeq : d = prevY + Dh := by omega
    rw [if_pos (show 0 < c.srcH - 0 ∧ 0 < Dh - (d - d) from ⟨by omega, by omega⟩),
      if_pos (show prevY < d from by omega)]
    simp only [Prod.mk.injEq, Option.some.injEq]
    refine ⟨by omega, by omega, by omega⟩



theorem stitchRun_tail (scale vh : ℚ) (hDh : 1 ≤ drawHeightOf scale vh) :
    ∀ (rest : List ViewportCapture) (prevY : ℤ),
      (∀ c ∈ rest, 0 < c.yOffset) →
      (∀ c ∈ rest, drawHeightOf scale vh ≤ c.srcH) →
      (∀ c ∈ rest.head?, prevY ≤ drawYOf scale c ∧
        drawYOf scale c ≤ prevY + drawHeightOf scale vh) →
      List.Chain' (fun a b => drawYOf scale a ≤ drawYOf scale b ∧
        drawYOf scale b ≤ drawYOf scale a + drawHeightOf scale vh) rest →
      (rest = [] →
        (stitchRun scale vh (prevY + drawHeightOf scale vh) false rest).1 =
          prevY + drawHeightOf scale vh) ∧
      (∀ c ∈ rest.getLast?,
        (stitchRun scale vh (prevY + drawHeightOf scale vh) false rest).1 =
          drawYOf scale c + drawHeightOf scale vh) ∧
      prevY + drawHeightOf scale vh ≤
        (stitchRun scale vh (prevY + drawHeightOf scale vh) false rest).1 ∧
      (∀ r : ℤ, r < prevY + drawHeightOf scale vh →
        writtenCount r (stitchRun scale vh (prevY + drawHeightOf scale vh) false rest).2 = 0) ∧
      (∀ r : ℤ, prevY + drawHeightOf scale vh ≤ r →
        r < (stitchRun scale vh (prevY + drawHeightOf scale vh) false rest).1 →
        writtenCount r (stitchRun scale vh (prevY + drawHeightOf scale vh) false rest).2 = 1 ∧
        writtenBy r (stitchRun scale vh (prevY + drawHeightOf scale vh) false rest).2 =
          firstCoverIdx scale vh r rest) := by
  intro rest
  induction rest with
  | nil =>
      intro prevY _ _ _ _
      refine ⟨fun _ => rfl, by simp [stitchRun], le_refl _, fun r _ => rfl, ?_⟩
      intro r hr1 hr2
      rw [stitchRun] at hr2
      omega
  | cons c rest ih =>
      intro prevY hpos hsrc hbound hchain
      have hd := hbound c (by simp)
      have hstep := stitchStep_eq scale vh c prevY (hpos c (by simp)) hDh
        (hsrc c (by simp)) hd.1 hd.2
      set d := drawYOf scale c with hddef
      set Dh := drawHeightOf scale vh with hDhdef2
      have hihyps := ih d (fun x hx => hpos x (List.mem_cons_of_mem _ hx))
        (fun x hx => hsrc x (List.mem_cons_of_mem _ hx))
        (by
          intro x hx
          cases rest with
          | nil => simp at hx
          | cons c2 rest2 =>
              simp only [List.head?_cons, Option.mem_def, Option.some.injEq] at hx
              subst hx
              exact (List.chain'_cons.mp hchain).1)
        hchain.tail
      -- unfold one step
      have hrun : stitchRun scale vh (prevY + Dh) false (c :: rest) =
          ((stitchRun scale vh (d + Dh) false rest).1,
            (if prevY < d then some (prevY + Dh, d + Dh) else none) ::
              (stitchRun scale vh (d + Dh) false rest).2) := by
        rw [stitchRun]
        rw [hstep]
      obtain ⟨-, hlast, hge, hlow, hmain⟩ := hihyps
      rw [hrun]
      refine ⟨by intro hcon; exact absurd hcon (by simp), ?_, ?_, ?_, ?_⟩
      · -- final lastBottom
        intro x hx
        cases hrest : rest with
        | nil =>
            subst hrest
            simp only [List.getLast?_singleton, Option.mem_def, Option.some.injEq] at hx
            subst hx
            rw [stitchRun]
        | cons c2 rest2 =>
            subst hrest
            rw [List.getLast?_cons_cons] at hx
            exact hlast x hx
      · -- lower bound on final
        have : d + Dh ≤ (stitchRun scale vh (d + Dh) false rest).1 := hge
        omega
      · -- rows below prevY + Dh never written
        intro r hr
        rw [writtenCount, List.countP_cons]
        have h1 : writtenCount r (stitchRun scale vh (d + Dh) false rest).2 = 0 :=
          hlow r (by omega)
        rw [writtenCount] at h1
        rw [h1]
        by_cases hio : prevY < d
        · rw [if_pos hio]
          simp [inIntervalB, decide_eq_true_eq]
          omega
        · rw [if_neg hio]
          simp [inIntervalB]
      · -- rows in [prevY + Dh, final): exactly once, by the first cover
        intro r hr1 hr2
        by_cases hcaseR : r < d + Dh
        · -- written by this call
          have hio : prevY < d := by omega
          have hwcount : writtenCount r (stitchRun scale vh (d + Dh) false rest).2 = 0 :=
            hlow r hcaseR
          constructor
          · rw [writtenCount, List.countP_cons, if_pos hio]
            rw [writtenCount] at hwcount
            rw [hwcount]
            simp [inIntervalB, decide_eq_true_eq]
            omega
          · rw [writtenBy]
            rw [if_pos hio]
            have hin : inIntervalB r (some (prevY + Dh, d + Dh)) = true := by
              simp [inIntervalB, decide_eq_true_eq]
              omega
            rw [if_pos hin]
            rw [firstCoverIdx]
            have hwin : inIntervalB r (some (stitchWindow scale vh c)) = true := by
              simp [inIntervalB, stitchWindow, decide_eq_true_eq, ← hddef, ← hDhdef2]
              omega
            rw [if_pos hwin]
        · -- handled by the tail
          push_neg at hcaseR
          have hmain' := hmain r hcaseR hr2
          constructor
          · rw [writtenCount, List.countP_cons]
            rw [writtenCount] at hmain'
            rw [hmain'.1]
            by_cases hio : prevY < d
            · rw [if_pos hio]
              simp [inIntervalB, decide_eq_true_eq]
              omega
            · rw [if_neg hio]
              simp [inIntervalB]
          · rw [writtenBy]
            have hnotin : ∀ w, w = (if prevY < d then some (prevY + Dh, d + Dh) else none) →
                inIntervalB r w = false := by
              intro w hw
              by_cases hio : prevY < d
              · rw [hw, if_pos hio]
                simp [inIntervalB, decide_eq_true_eq]
                omega
              · rw [hw, if_neg hio]
                simp [inIntervalB]
            rw [if_neg (by rw [hnotin _ rfl]; simp)]
            rw [hmain'.2]
            rw [firstCoverIdx]
            have hwin : inIntervalB r (some (stitchWindow scale vh c)) = false := by
              simp [inIntervalB, stitchWindow, decide_eq_true_eq, ← hddef, ← hDhdef2]
              omega
            rw [if_neg (by rw [hwin]; simp)]


theorem stitchStep_first (scale vh : ℚ) (c : ViewportCapture)
    (hd0 : drawYOf scale c = 0)
    (hDh : 1 ≤ drawHeightOf scale vh)
    (hsrc : drawHeightOf scale vh ≤ c.srcH) :
    stitchStep scale vh true 0 c =
      (drawHeightOf scale vh, some (0, drawHeightOf scale vh)) := by
  have hcond : ¬ (true = false ∧ 0 < c.yOffset ∧ (0:ℤ) < 0) := by
    rintro ⟨hcon, -⟩
    exact absurd hcon (by simp)
  simp only [stitchStep, hd0, if_neg hcond, sub_zero, zero_add, zero_sub, neg_zero]
  rw [if_pos ⟨by omega, by omega⟩]

theorem chain'_head_lt {f : ViewportCapture → ℚ} :
    ∀ (c0 : ViewportCapture) (rest : List ViewportCapture),
      List.Chain' (fun a b => f a < f b) (c0 :: rest) → ∀ x ∈ rest, f c0 < f x := by
  intro c0 rest
  induction rest generalizing c0 with
  | nil => intro _ x hx; simp at hx
  | cons c1 t ih =>
      intro hchain x hx
      have h01 := (List.chain'_cons.mp hchain).1
      rcases List.mem_cons.mp hx with rfl | hx
      · exact h01
      · exact lt_trans h01 (ih c1 (List.chain'_cons.mp hchain).2 x hx)

/-- C4, corrected: when a segment's captures are stitched in increasing
scroll order, their physical windows `[drawY, drawY + drawHeight)` cover
`[0, H)` without skipping, and each source image is at least one drawn
viewport tall, every canvas row in `[0, H)` is written by exactly one
`drawImage` call — namely by the *earliest* (top-most in scroll order)
capture whose window covers that row: later captures crop their
already-covered top, so the first writer wins contested rows, not the
latest. -/
theorem stitchViewport_exactly_once (scale vh : ℚ) (caps : List ViewportCapture)
    (H : ℤ)
    (hne : caps ≠ [])
    (hDh : 1 ≤ drawHeightOf scale vh)
    (hsrc : ∀ c ∈ caps, drawHeightOf scale vh ≤ c.srcH)
    (hy0 : ∀ c ∈ caps.head?, 0 ≤ c.yOffset ∧ drawYOf scale c = 0)
    (hmono : List.Chain' (fun a b => a.yOffset < b.yOffset ∧
      drawYOf scale a ≤ drawYOf scale b ∧
      drawYOf scale b ≤ drawYOf scale a + drawHeightOf scale vh) caps)
    (hlast : ∀ c ∈ caps.getLast?, H ≤ drawYOf scale c + drawHeightOf scale vh) :
    ∀ r : ℤ, 0 ≤ r → r < H →
      writtenCount r (stitchViewportAll scale vh caps) = 1 ∧
      writtenBy r (stitchViewportAll scale vh caps) = firstCoverIdx scale vh r caps := by
  cases caps with
  | nil => exact absurd rfl hne
  | cons c0 rest =>
      intro r hr1 hr2
      have h0 := hy0 c0 (by simp)
      have hfirst := stitchStep_first scale vh c0 h0.2 hDh (hsrc c0 (by simp))
      have hrun : stitchViewportAll scale vh (c0 :: rest) =
          some (0, drawHeightOf scale vh) ::
            (stitchRun scale vh (0 + drawHeightOf scale vh) false rest).2 := by
        unfold stitchViewportAll
        rw [stitchRun, hfirst, zero_add]
      have htail := stitchRun_tail scale vh hDh rest 0
        (fun x hx => by
          have := chain'_head_lt c0 rest (hmono.imp fun a b h => h.1) x hx
          have hc0 := h0.1
          linarith)
        (fun x hx => hsrc x (List.mem_cons_of_mem _ hx))
        (by
          intro x hx
          cases rest with
          | nil => simp at hx
          | cons c1 t =>
              simp only [List.head?_cons, Option.mem_def, Option.some.injEq] at hx
              subst hx
              have hlink := (List.chain'_cons.mp hmono).1
              have h1 := hlink.2.1
              have h2 := hlink.2.2
              rw [h0.2] at h1 h2
              exact ⟨by omega, by omega⟩)
        (hmono.tail.imp fun a b h => ⟨h.2.1, h.2.2⟩)
      obtain ⟨hnil, hlastb, hge, hlow, hmain⟩ := htail
      have hfinal : H ≤ (stitchRun scale vh (0 + drawHeightOf scale vh) false rest).1 := by
        cases rest with
        | nil =>
            rw [hnil rfl]
            have := hlast c0 (by simp)
            rw [h0.2] at this
            omega
        | cons c1 t =>
            rw [List.getLast?_cons_cons] at hlast
            cases hgl : (c1 :: t).getLast? with
            | none => simp at hgl
            | some cl =>
                have h1 := hlastb cl hgl
                have h2 := hlast cl hgl
                omega
      rw [hrun]
      by_cases hcaseR : r < drawHeightOf scale vh
      · constructor
        · rw [writtenCount, List.countP_cons]
          have h1 := hlow r (by omega)
          rw [writtenCount] at h1
          rw [h1, if_pos (by simp only [inIntervalB, decide_eq_true_eq]; omega)]
        · rw [writtenBy,
            if_pos (by simp only [inIntervalB, decide_eq_true_eq]; omega)]
          rw [firstCoverIdx, if_pos (by
            simp only [inIntervalB, stitchWindow, decide_eq_true_eq, h0.2]
            omega)]
      · push_neg at hcaseR
        have hmain' := hmain r (by omega) (by omega)
        constructor
        · rw [writtenCount, List.countP_cons]
          rw [writtenCount] at hmain'
          rw [hmain'.1,
            if_neg (by simp only [inIntervalB, decide_eq_true_eq]; omega)]
        · rw [writtenBy,
            if_neg (by simp only [inIntervalB, decide_eq_true_eq]; omega)]
          rw [hmain'.2]
          rw [firstCoverIdx, if_neg (by
            simp only [inIntervalB, stitchWindow, decide_eq_true_eq, h0.2]
            omega)]


/-- C4 counterexample: two captures with windows `[0, 10)` and `[5, 15)`
(scale 1, viewport height 10).  Row `7` is covered by the *latest* capture
(window `[5, 15)`), yet it was written by capture 0's `drawImage`
(interval `[0, 10)`) and not by capture 1 (which wrote only `[10, 15)`):
the crop keeps the earlier capture's pixels in the contested region,
refuting "the latest capture wins". -/
theorem stitchViewport_latest_cex :
    stitchViewportAll 1 10 [⟨0, 20⟩, ⟨5, 20⟩] = [some (0, 10), some (10, 15)] ∧
    stitchWindow 1 10 ⟨5, 20⟩ = (5, 15) ∧
    writtenBy 7 [some (0, 10), some (10, 15)] = some 0 := by
  have hjs0 : jsRound ((0:ℚ) * 1) = 0 := by norm_num [jsRound]
  have hjs5 : jsRound ((5:ℚ) * 1) = 5 := by norm_num [jsRound]
  have hjs10 : jsRound ((10:ℚ) * 1) = 10 := by norm_num [jsRound]
  refine ⟨?_, ?_, ?_⟩
  · unfold stitchViewportAll
    rw [stitchRun, stitchRun, stitchRun]
    norm_num [stitchStep, drawYOf, drawHeightOf, jsRound]
  · unfold stitchWindow drawYOf drawHeightOf
    rw [hjs5, hjs10]
    norm_num
  · rw [writtenBy, if_pos (by norm_num [inIntervalB])]


/-- Witness for `stitchViewport_exactly_once` at the two-capture example,
row `7`. -/
theorem stitchViewport_exactly_once_witness :
    writtenCount 7 (stitchViewportAll 1 10 [⟨0, 20⟩, ⟨5, 20⟩]) = 1 ∧
    writtenBy 7 (stitchViewportAll 1 10 [⟨0, 20⟩, ⟨5, 20⟩]) =
      firstCoverIdx 1 10 7 [⟨0, 20⟩, ⟨5, 20⟩] :=
  stitchViewport_exactly_once 1 10 [⟨0, 20⟩, ⟨5, 20⟩] 15
    (by simp)
    (by norm_num [drawHeightOf, jsRound])
    (by
      intro c hc
      rcases List.mem_cons.mp hc with rfl | hc
      · norm_num [drawHeightOf, jsRound]
      · rcases List.mem_cons.mp hc with rfl | hc
        · norm_num [drawHeightOf, jsRound]
        · simp at hc)
    (by
      intro c hc
      simp only [List.head?_cons, Option.mem_def, Option.some.injEq] at hc
      subst hc
      norm_num [drawYOf, jsRound])
    (by
      norm_num [List.chain'_cons, drawYOf, drawHeightOf, jsRound])
    (by
      intro c hc
      simp only [List.getLast?_cons_cons, List.getLast?_singleton,
        Option.mem_def, Option.some.injEq] at hc
      subst hc
      norm_num [drawYOf, drawHeightOf, jsRound])
    7 (by norm_num) (by norm_num)

/-! ### `appendCanvasToPagedPdf` (viewer, lines 868–1096) and its pixel
analysis helpers (lines 772–866)

The canvas is a flat RGBA byte array, modelled as a function `ℕ → ℕ` from
byte offset to value; `canvas.width/height` are physical pixels.  The page
loop's per-page state is `prevCutY`; each iteration emits one `PageSlice`. -/

/-- A whitespace band `{start, end, centre, width}` from
`findAllWhitespaceBands`. -/
structure Band where
  startRow : ℤ
  endRow : ℤ
  centre : ℚ
  width : ℤ
deriving DecidableEq, Repr

/-- One exported page's source region plus the cut bookkeeping flags the
loop computes for it. -/
structure PageSlice where
  srcY : ℤ
  srcH : ℤ
  usedOverlap : Bool
  consumedBand : Option Band
deriving DecidableEq, Repr

/-- The inputs of `appendCanvasToPagedPdf` that the slicing logic depends
on: canvas size (physical px), page size (`a4` or letter), the export-time
`window.devicePixelRatio`, and how many footer lines are configured
(`settings.showUrl` / `settings.showTimestamp`, hence at most 2). -/
structure PdfParams where
  canvasW : ℕ
  canvasH : ℕ
  isA4 : Bool
  dprRaw : ℚ
  footerCount : ℕ
deriving Repr

/-- `pageSize === 'a4' ? [210, 297] : [215.9, 279.4]` (width). -/
def pageDimsW (P : PdfParams) : ℚ := if P.isA4 then 210 else 2159/10

/-- Page height in mm. -/
def pageDimsH (P : PdfParams) : ℚ := if P.isA4 then 297 else 2794/10

/-- `margin = 10`. -/
def marginMm : ℚ := 10

/-- `dpr = Math.max(1, Math.round(window.devicePixelRatio || 1))`. -/
def exportDpr (P : PdfParams) : ℤ :=
  max 1 (jsRound (if P.dprRaw = 0 then 1 else P.dprRaw))

/-- `pxToMm = 25.4 / (96 * dpr)`. -/
def pxToMm (P : PdfParams) : ℚ := (254/10) / (96 * (exportDpr P : ℚ))

/-- `imgWidthMm = canvas.width * pxToMm`. -/
def imgWidthMm (P : PdfParams) : ℚ := (P.canvasW : ℚ) * pxToMm P

/-- `imgHeightMm = canvas.height * pxToMm`. -/
def imgHeightMm (P : PdfParams) : ℚ := (P.canvasH : ℚ) * pxToMm P

/-- `contentW = pageDims[0] - 2 * margin`. -/
def contentW (P : PdfParams) : ℚ := pageDimsW P - 2 * marginMm

/-- `contentH = pageDims[1] - 2 * margin`. -/
def contentH (P : PdfParams) : ℚ := pageDimsH P - 2 * marginMm

/-- `scale = contentW / imgWidthMm`. -/
def scaleOf (P : PdfParams) : ℚ := contentW P / imgWidthMm P

/-- `FOOTER_LINE_HEIGHT_MM = 3.5`. -/
def FOOTER_LINE_HEIGHT_MM : ℚ := 7/2

/-- `FOOTER_PADDING_MM = 2.5`. -/
def FOOTER_PADDING_MM : ℚ := 5/2

/-- `footerReservedMm` (0 when no footer lines are shown). -/
def footerReservedMm (P : PdfParams) : ℚ :=
  if 0 < P.footerCount then
    FOOTER_PADDING_MM + (P.footerCount : ℚ) * FOOTER_LINE_HEIGHT_MM
  else 0

/-- `imageContentH = contentH - footerReservedMm`. -/
def imageContentH (P : PdfParams) : ℚ := contentH P - footerReservedMm P

/-- `scaledHeight = imgHeightMm * scale`. -/
def scaledHeight (P : PdfParams) : ℚ := imgHeightMm P * scaleOf P

/-- `pagesNeeded = Math.ceil(scaledHeight / imageContentH)`. -/
def pagesNeeded (P : PdfParams) : ℕ :=
  (⌈scaledHeight P / imageContentH P⌉).toNat

/-- `contentHPx = (imageContentH / scale / imgHeightMm) * canvas.height` —
source pixels filling one page's image area. -/
def contentHPx (P : PdfParams) : ℚ :=
  imageContentH P / scaleOf P / imgHeightMm P * (P.canvasH : ℚ)

/-- `OVERLAP_PX = 60`. -/
def OVERLAP_PX : ℤ := 60

/-- `sourceEndMm = Math.min((page + 1) * imageContentH / scale, imgHeightMm)`. -/
def sourceEndMm (P : PdfParams) (page : ℕ) : ℚ :=
  min (((page : ℚ) + 1) * imageContentH P / scaleOf P) (imgHeightMm P)

/-- `nominalEndY = Math.min(Math.round((sourceEndMm / imgHeightMm) * canvas.height), canvas.height)`. -/
def nominalEndY (P : PdfParams) (page : ℕ) : ℤ :=
  min (jsRound (sourceEndMm P page / imgHeightMm P * (P.canvasH : ℚ))) (P.canvasH : ℤ)

/-- Pass 1 of the band search (`for (const band of allBands)` with the
`break` once `dist > contentHPx * 0.5`), carrying `bestBandForPage` and
`bestDist` (`none` models `bestDist = Infinity`). -/
def pass1Go (prevCutY nominalEnd : ℤ) (cHPx : ℚ) :
    List Band → Option (Band × ℚ) → Option Band
  | [], best => best.map (·.1)
  | b :: rest, best =>
      if b.endRow ≤ prevCutY then pass1Go prevCutY nominalEnd cHPx rest best
      else if b.centre < (nominalEnd : ℚ) then
        pass1Go prevCutY nominalEnd cHPx rest best
      else
        let dist := b.centre - (nominalEnd : ℚ)
        let best' :=
          match best with
          | none => some (b, dist)
          | some (b0, d0) => if dist < d0 then some (b, dist) else some (b0, d0)
        if dist > cHPx * (1/2) then best'.map (·.1)
        else pass1Go prevCutY nominalEnd cHPx rest best'

/-- Pass 2 of the band search (no break; closest band behind the nominal
cut wins). -/
def pass2Go (prevCutY nominalEnd : ℤ) :
    List Band → Option (Band × ℚ) → Option Band
  | [], best => best.map (·.1)
  | b :: rest, best =>
      if b.endRow ≤ prevCutY then pass2Go prevCutY nominalEnd rest best
      else if (nominalEnd : ℚ) ≤ b.centre then pass2Go prevCutY nominalEnd rest best
      else
        let dist := (nominalEnd : ℚ) - b.centre
        let best' :=
          match best with
          | none => some (b, dist)
          | some (b0, d0) => if dist < d0 then some (b, dist) else some (b0, d0)
        pass2Go prevCutY nominalEnd rest best'

/-- `bestBandForPage` after Steps 1–2 for one page. -/
def bestBandFor (P : PdfParams) (allBands : Option (List Band)) (page : ℕ)
    (prevCutY : ℤ) : Option Band :=
  match allBands with
  | none => none
  | some bands =>
      if page + 1 < pagesNeeded P then
        match pass1Go prevCutY (nominalEndY P page) (contentHPx P) bands none with
        | some b => some b
        | none => pass2Go prevCutY (nominalEndY P page) bands none
      else none

/-- `refinedEndY` after Step 2 (before the safety floor): the selected
band's `start`, else `nominalEndY`. -/
def refinedEndY0 (P : PdfParams) (allBands : Option (List Band)) (page : ℕ)
    (prevCutY : ℤ) : ℤ :=
  match bestBandFor P allBands page prevCutY with
  | some b => b.startRow
  | none => nominalEndY P page

/-- `useOverlap` after Step 2: set only inside the band block (bands
available, interior page) when no band was found. -/
def useOverlapB (P : PdfParams) (allBands : Option (List Band)) (page : ℕ)
    (prevCutY : ℤ) : Bool :=
  allBands.isSome && decide (page + 1 < pagesNeeded P) &&
    (bestBandFor P allBands page prevCutY).isNone

/-- `srcY` of Step 3 before the safety floor. -/
def srcYpre (P : PdfParams) (allBands : Option (List Band)) (page : ℕ)
    (prevCutY : ℤ) : ℤ :=
  if useOverlapB P allBands page prevCutY = true ∧ 0 < prevCutY then
    max 0 (prevCutY - OVERLAP_PX)
  else prevCutY

/-- The safety-floor guard `srcH < contentHPx * 0.05`. -/
def floorB (P : PdfParams) (allBands : Option (List Band)) (page : ℕ)
    (prevCutY : ℤ) : Bool :=
  decide (((refinedEndY0 P allBands page prevCutY -
    srcYpre P allBands page prevCutY : ℤ) : ℚ) < contentHPx P * (1/20))

/-- One iteration of the page loop (Steps 1–3 and 6): emits the page's
`PageSlice` and the next `prevCutY`. -/
def pageStep (P : PdfParams) (allBands : Option (List Band)) (page : ℕ)
    (prevCutY : ℤ) : PageSlice × ℤ :=
  let cHPx := contentHPx P
  let best0 := bestBandFor P allBands page prevCutY
  let refined0 := refinedEndY0 P allBands page prevCutY
  let useOverlap0 := useOverlapB P allBands page prevCutY
  let srcY0 := srcYpre P allBands page prevCutY
  let flr := floorB P allBands page prevCutY
  let srcY1 := if flr then prevCutY else srcY0
  let refined1 :=
    if flr then min (prevCutY + jsRound cHPx) (P.canvasH : ℤ) else refined0
  let best1 := if flr then none else best0
  let useOverlap1 := if flr then false else useOverlap0
  let srcH1 := refined1 - srcY1
  let srcH2 := max 1 (min srcH1 (jsRound cHPx))
  let newPrev : ℤ := match best1 with | some b => b.endRow + 1 | none => refined1
  (⟨srcY1, srcH2, useOverlap1, best1⟩, newPrev)

/-- The page loop `for (let page = 0; page < pagesNeeded; page++)`, with
`remaining` pages left to emit. -/
def paginateFrom (P : PdfParams) (allBands : Option (List Band)) :
    ℕ → ℕ → ℤ → List PageSlice
  | 0, _, _ => []
  | n + 1, page, prevCutY =>
      let r := pageStep P allBands page prevCutY
      r.1 :: paginateFrom P allBands n (page + 1) r.2

/-- All slices emitted by `appendCanvasToPagedPdf` for a given band
analysis result. -/
def appendCanvasSlices (P : PdfParams) (allBands : Option (List Band)) :
    List PageSlice :=
  paginateFrom P allBands (pagesNeeded P) 0 0

/-! #### Pixel analysis pipeline -/

/-- `(data[off] + data[off+1] + data[off+2]) / 3`. -/
def brightnessAt (data : ℕ → ℕ) (off : ℕ) : ℚ :=
  ((data off : ℚ) + (data (off + 1) : ℚ) + (data (off + 2) : ℚ)) / 3

/-- The sampled columns `for (let c = 0; c < width; c += sampleStride)`
(fuel-driven; `width` steps always suffice for a positive stride). -/
def sampleColsGo (width stride : ℕ) : ℕ → ℕ → List ℕ
  | _, 0 => []
  | c, fuel + 1 =>
      if c < width then c :: sampleColsGo width stride (c + stride) fuel else []

/-- Sampled column list starting at `c = 0`. -/
def sampleCols (width stride : ℕ) : List ℕ := sampleColsGo width stride 0 width

/-- One row's score from `buildRowScores`: mean `|brightness - bgBrightness|`
over the sampled columns. -/
def rowScore (data : ℕ → ℕ) (width stride : ℕ) (bg : ℚ) (r : ℕ) : ℚ :=
  let devs := (sampleCols width stride).map
    (fun c => |brightnessAt data ((r * width + c) * 4) - bg|)
  if devs.length = 0 then 0 else devs.sum / (devs.length : ℚ)

/-- `edgeRows = Math.max(1, Math.round(canvasHeight * 0.03))`. -/
def edgeRowsOf (height : ℕ) : ℕ :=
  max 1 (jsRound ((height : ℚ) * (3/100))).toNat

/-- `detectBackgroundBrightness`: mean brightness over the sampled columns
of the top and bottom `edgeRows` rows (255 when no samples). -/
def detectBackgroundBrightness (data : ℕ → ℕ) (width height stride : ℕ) : ℚ :=
  let edgeRows := edgeRowsOf height
  let rows := List.range edgeRows ++ (List.range edgeRows).map (height - edgeRows + ·)
  let flat := (rows.map (fun r => (sampleCols width stride).map
    (fun c => brightnessAt data ((r * width + c) * 4)))).flatten
  if flat.length = 0 then 255 else flat.sum / (flat.length : ℚ)

/-- The scan of `findAllWhitespaceBands`: `r` runs from `fromY` to `toY + 1`
(one past the end so a final run is flushed); `st` is the pending
`bandStart` (`none` models `-1`).  `fuel` is `toY + 2 - r` at every call. -/
def bandScan (score : ℕ → ℚ) (toY : ℕ) (thr : ℚ) (minW : ℤ) :
    ℕ → ℕ → Option ℕ → List Band
  | _, 0, _ => []
  | r, fuel + 1, st =>
      if r ≤ toY ∧ score r < thr then
        match st with
        | none => bandScan score toY thr minW (r + 1) fuel (some r)
        | some s => bandScan score toY thr minW (r + 1) fuel (some s)
      else
        match st with
        | some s =>
            (if minW ≤ (r : ℤ) - 1 - (s : ℤ) + 1 then
              [⟨(s : ℤ), (r : ℤ) - 1, ((s : ℚ) + ((r : ℚ) - 1)) / 2,
                (r : ℤ) - 1 - (s : ℤ) + 1⟩]
            else []) ++ bandScan score toY thr minW (r + 1) fuel none
        | none => bandScan score toY thr minW (r + 1) fuel none

/-- `findAllWhitespaceBands(rowScores, fromY, toY, blankThreshold, minBandPx)`. -/
def findAllWhitespaceBands (score : ℕ → ℚ) (fromY toY : ℕ) (thr : ℚ)
    (minW : ℤ) : List Band :=
  bandScan score toY thr minW fromY (toY + 2 - fromY) none

/-- The `try { getImageData ... } catch { allBands = null }` block: `none`
pixel data (tainted canvas / missing context) yields `allBands = null`. -/
def allBandsOf (data : Option (ℕ → ℕ)) (width height : ℕ) :
    Option (List Band) :=
  match data with
  | none => none
  | some d =>
      let bg := detectBackgroundBrightness d width height 4
      some (findAllWhitespaceBands (fun r => rowScore d width 4 bg r) 0
        (height - 1) 12 2)

/-- Full `appendCanvasToPagedPdf` slicing: pixel analysis (or its failure)
followed by the page loop. -/
def appendCanvasToPagedPdfSlices (P : PdfParams) (data : Option (ℕ → ℕ)) :
    List PageSlice :=
  appendCanvasSlices P (allBandsOf data P.canvasW P.canvasH)

/-! #### Basic geometry facts -/

theorem exportDpr_pos (P : PdfParams) : 0 < exportDpr P :=
  lt_of_lt_of_le one_pos (le_max_left _ _)

theorem pxToMm_pos (P : PdfParams) : 0 < pxToMm P := by
  unfold pxToMm
  have := exportDpr_pos P
  have h1 : (0:ℚ) < (exportDpr P : ℚ) := by exact_mod_cast this
  positivity

theorem contentW_pos (P : PdfParams) : 0 < contentW P := by
  unfold contentW pageDimsW marginMm
  split <;> norm_num

theorem footerReserved_le (P : PdfParams) (hfc : P.footerCount ≤ 2) :
    footerReservedMm P ≤ 19/2 := by
  unfold footerReservedMm FOOTER_PADDING_MM FOOTER_LINE_HEIGHT_MM
  split
  · have : (P.footerCount : ℚ) ≤ 2 := by exact_mod_cast hfc
    linarith
  · norm_num

theorem footerReserved_nonneg (P : PdfParams) : 0 ≤ footerReservedMm P := by
  unfold footerReservedMm FOOTER_PADDING_MM FOOTER_LINE_HEIGHT_MM
  split
  · positivity
  · norm_num

theorem imageContentH_pos (P : PdfParams) (hfc : P.footerCount ≤ 2) :
    249 ≤ imageContentH P ∧ imageContentH P ≤ 277 := by
  unfold imageContentH contentH pageDimsH marginMm
  have h1 := footerReserved_le P hfc
  have h2 := footerReserved_nonneg P
  split <;> constructor <;> linarith

theorem contentHPx_eq (P : PdfParams) (hch : 1 ≤ P.canvasH) (hcw : 1 ≤ P.canvasW) :
    contentHPx P = imageContentH P * (P.canvasW : ℚ) / contentW P := by
  unfold contentHPx scaleOf imgWidthMm imgHeightMm
  have hpx : pxToMm P ≠ 0 := ne_of_gt (pxToMm_pos P)
  have hw : (P.canvasW : ℚ) ≠ 0 := by
    have : (0:ℚ) < (P.canvasW : ℚ) := by exact_mod_cast hcw
    exact ne_of_gt this
  have hh : (P.canvasH : ℚ) ≠ 0 := by
    have : (0:ℚ) < (P.canvasH : ℚ) := by exact_mod_cast hch
    exact ne_of_gt this
  have hcwp : contentW P ≠ 0 := ne_of_gt (contentW_pos P)
  field_simp
  ring

theorem contentHPx_gt_half (P : PdfParams) (hch : 1 ≤ P.canvasH)
    (hcw : 1 ≤ P.canvasW) (hfc : P.footerCount ≤ 2) :
    1/2 < contentHPx P := by
  rw [contentHPx_eq P hch hcw]
  have h1 := (imageContentH_pos P hfc).1
  have hw : (1:ℚ) ≤ (P.canvasW : ℚ) := by exact_mod_cast hcw
  have hcw196 : contentW P ≤ 196 := by
    unfold contentW pageDimsW marginMm
    split <;> norm_num
  have hcwpos := contentW_pos P
  rw [lt_div_iff₀ hcwpos]
  nlinarith

theorem contentHPx_pos (P : PdfParams) (hch : 1 ≤ P.canvasH)
    (hcw : 1 ≤ P.canvasW) (hfc : P.footerCount ≤ 2) : 0 < contentHPx P :=
  lt_trans (by norm_num) (contentHPx_gt_half P hch hcw hfc)

theorem one_le_jsRound_contentHPx (P : PdfParams) (hch : 1 ≤ P.canvasH)
    (hcw : 1 ≤ P.canvasW) (hfc : P.footerCount ≤ 2) :
    1 ≤ jsRound (contentHPx P) := by
  have := contentHPx_gt_half P hch hcw hfc
  unfold jsRound
  have : (1:ℚ) ≤ contentHPx P + 1/2 := by linarith
  exact Int.le_floor.mpr (by exact_mod_cast this)

theorem imgWidthMm_pos (P : PdfParams) (hcw : 1 ≤ P.canvasW) :
    0 < imgWidthMm P := by
  unfold imgWidthMm
  have h1 : (0:ℚ) < (P.canvasW : ℚ) := by exact_mod_cast hcw
  exact mul_pos h1 (pxToMm_pos P)

theorem imgHeightMm_pos (P : PdfParams) (hch : 1 ≤ P.canvasH) :
    0 < imgHeightMm P := by
  unfold imgHeightMm
  have h1 : (0:ℚ) < (P.canvasH : ℚ) := by exact_mod_cast hch
  exact mul_pos h1 (pxToMm_pos P)

theorem scaleOf_pos (P : PdfParams) (hcw : 1 ≤ P.canvasW) : 0 < scaleOf P :=
  div_pos (contentW_pos P) (imgWidthMm_pos P hcw)

theorem sourceEndMm_nonneg (P : PdfParams) (page : ℕ) (hch : 1 ≤ P.canvasH)
    (hcw : 1 ≤ P.canvasW) (hfc : P.footerCount ≤ 2) :
    0 ≤ sourceEndMm P page := by
  unfold sourceEndMm
  apply le_min
  · apply div_nonneg _ (le_of_lt (scaleOf_pos P hcw))
    have h1 := (imageContentH_pos P hfc).1
    positivity
  · exact le_of_lt (imgHeightMm_pos P hch)

theorem nominalEndY_nonneg (P : PdfParams) (page : ℕ) (hch : 1 ≤ P.canvasH)
    (hcw : 1 ≤ P.canvasW) (hfc : P.footerCount ≤ 2) :
    0 ≤ nominalEndY P page := by
  unfold nominalEndY
  apply le_min
  · apply jsRound_nonneg
    apply mul_nonneg
    · exact div_nonneg (sourceEndMm_nonneg P page hch hcw hfc)
        (le_of_lt (imgHeightMm_pos P hch))
    · positivity
  · positivity

theorem nominalEndY_le (P : PdfParams) (page : ℕ) :
    nominalEndY P page ≤ (P.canvasH : ℤ) :=
  min_le_right _ _

/-! #### Soundness of the two band-search passes -/

theorem pass1Go_sound (pc ne : ℤ) (cH : ℚ) :
    ∀ (l : List Band) (acc : Option (Band × ℚ)) (b : Band),
      pass1Go pc ne cH l acc = some b →
      (b ∈ l ∧ pc < b.endRow ∧ (ne : ℚ) ≤ b.centre) ∨
        (∃ p, acc = some p ∧ b = p.1) := by
  intro l
  induction l with
  | nil =>
      intro acc b h
      right
      rw [pass1Go] at h
      cases acc with
      | none => simp at h
      | some p =>
          refine ⟨p, rfl, ?_⟩
          simp only [Option.map_some'] at h
          exact (Option.some.inj h).symm
  | cons c rest ih =>
      intro acc b h
      rw [pass1Go] at h
      by_cases h1 : c.endRow ≤ pc
      · rw [if_pos h1] at h
        rcases ih acc b h with ⟨hm, hr⟩ | hacc
        · exact Or.inl ⟨List.mem_cons_of_mem _ hm, hr⟩
        · exact Or.inr hacc
      · rw [if_neg h1] at h
        by_cases h2 : c.centre < (ne : ℚ)
        · rw [if_pos h2] at h
          rcases ih acc b h with ⟨hm, hr⟩ | hacc
          · exact Or.inl ⟨List.mem_cons_of_mem _ hm, hr⟩
          · exact Or.inr hacc
        · rw [if_neg h2] at h
          push_neg at h1 h2
          cases acc with
          | none =>
              simp only [] at h
              by_cases h3 : c.centre - (ne : ℚ) > cH * (1/2)
              · rw [if_pos h3] at h
                simp only [Option.map_some', Option.some.injEq] at h
                subst h
                exact Or.inl ⟨List.mem_cons_self _ _, h1, h2⟩
              · rw [if_neg h3] at h
                rcases ih _ b h with ⟨hm, hr⟩ | ⟨p, hp, hbp⟩
                · exact Or.inl ⟨List.mem_cons_of_mem _ hm, hr⟩
                · simp only [Option.some.injEq] at hp
                  subst hp
                  rw [hbp]
                  exact Or.inl ⟨List.mem_cons_self _ _, h1, h2⟩
          | some p0 =>
              obtain ⟨b0, d0⟩ := p0
              simp only [] at h
              by_cases hd : c.centre - (ne : ℚ) < d0
              · rw [if_pos hd] at h
                by_cases h3 : c.centre - (ne : ℚ) > cH * (1/2)
                · rw [if_pos h3] at h
                  simp only [Option.map_some', Option.some.injEq] at h
                  subst h
                  exact Or.inl ⟨List.mem_cons_self _ _, h1, h2⟩
                · rw [if_neg h3] at h
                  rcases ih _ b h with ⟨hm, hr⟩ | ⟨p, hp, hbp⟩
                  · exact Or.inl ⟨List.mem_cons_of_mem _ hm, hr⟩
                  · simp only [Option.some.injEq] at hp
                    subst hp
                    rw [hbp]
                    exact Or.inl ⟨List.mem_cons_self _ _, h1, h2⟩
              · rw [if_neg hd] at h
                by_cases h3 : c.centre - (ne : ℚ) > cH * (1/2)
                · rw [if_pos h3] at h
                  simp only [Option.map_some', Option.some.injEq] at h
                  exact Or.inr ⟨(b0, d0), rfl, h.symm⟩
                · rw [if_neg h3] at h
                  rcases ih _ b h with ⟨hm, hr⟩ | ⟨p, hp, hbp⟩
                  · exact Or.inl ⟨List.mem_cons_of_mem _ hm, hr⟩
                  · simp only [Option.some.injEq] at hp
                    subst hp
                    exact Or.inr ⟨(b0, d0), rfl, hbp⟩

theorem pass2Go_sound (pc ne : ℤ) :
    ∀ (l : List Band) (acc : Option (Band × ℚ)) (b : Band),
      pass2Go pc ne l acc = some b →
      (b ∈ l ∧ pc < b.endRow ∧ b.centre < (ne : ℚ)) ∨
        (∃ p, acc = some p ∧ b = p.1) := by
  intro l
  induction l with
  | nil =>
      intro acc b h
      right
      rw [pass2Go] at h
      cases acc with
      | none => simp at h
      | some p =>
          refine ⟨p, rfl, ?_⟩
          simp only [Option.map_some'] at h
          exact (Option.some.inj h).symm
  | cons c rest ih =>
      intro acc b h
      rw [pass2Go] at h
      by_cases h1 : c.endRow ≤ pc
      · rw [if_pos h1] at h
        rcases ih acc b h with ⟨hm, hr⟩ | hacc
        · exact Or.inl ⟨List.mem_cons_of_mem _ hm, hr⟩
        · exact Or.inr hacc
      · rw [if_neg h1] at h
        by_cases h2 : (ne : ℚ) ≤ c.centre
        · rw [if_pos h2] at h
          rcases ih acc b h with ⟨hm, hr⟩ | hacc
          · exact Or.inl ⟨List.mem_cons_of_mem _ hm, hr⟩
          · exact Or.inr hacc
        · rw [if_neg h2] at h
          push_neg at h1 h2
          cases acc with
          | none =>
              simp only [] at h
              rcases ih _ b h with ⟨hm, hr⟩ | ⟨p, hp, hbp⟩
              · exact Or.inl ⟨List.mem_cons_of_mem _ hm, hr⟩
              · simp only [Option.some.injEq] at hp
                subst hp
                rw [hbp]
                exact Or.inl ⟨List.mem_cons_self _ _, h1, h2⟩
          | some p0 =>
              obtain ⟨b0, d0⟩ := p0
              simp only [] at h
              by_cases hd : (ne : ℚ) - c.centre < d0
              · rw [if_pos hd] at h
                rcases ih _ b h with ⟨hm, hr⟩ | ⟨p, hp, hbp⟩
                · exact Or.inl ⟨List.mem_cons_of_mem _ hm, hr⟩
                · simp only [Option.some.injEq] at hp
                  subst hp
                  rw [hbp]
                  exact Or.inl ⟨List.mem_cons_self _ _, h1, h2⟩
              · rw [if_neg hd] at h
                rcases ih _ b h with ⟨hm, hr⟩ | ⟨p, hp, hbp⟩
                · exact Or.inl ⟨List.mem_cons_of_mem _ hm, hr⟩
                · simp only [Option.some.injEq] at hp
                  subst hp
                  exact Or.inr ⟨(b0, d0), rfl, hbp⟩

theorem bestBandFor_sound (P : PdfParams) (ab : Option (List Band)) (page : ℕ)
    (pc : ℤ) (b : Band) (hb : bestBandFor P ab page pc = some b) :
    ∃ bands, ab = some bands ∧ b ∈ bands ∧ pc < b.endRow := by
  unfold bestBandFor at hb
  cases ab with
  | none => simp at hb
  | some bands =>
      refine ⟨bands, rfl, ?_⟩
      simp only [] at hb
      by_cases hpg : page + 1 < pagesNeeded P
      · rw [if_pos hpg] at hb
        cases hp1 : pass1Go pc (nominalEndY P page) (contentHPx P) bands none with
        | some b1 =>
            rw [hp1] at hb
            have := Option.some.inj hb
            subst this
            rcases pass1Go_sound pc (nominalEndY P page) (contentHPx P) bands none b1 hp1 with
              ⟨hm, hr, -⟩ | ⟨p, hp, -⟩
            · exact ⟨hm, hr⟩
            · simp at hp
        | none =>
            rw [hp1] at hb
            rcases pass2Go_sound pc (nominalEndY P page) bands none b hb with
              ⟨hm, hr, -⟩ | ⟨p, hp, -⟩
            · exact ⟨hm, hr⟩
            · simp at hp
      · rw [if_neg hpg] at hb
        simp at hb

/-! #### `pageStep` case analysis -/

theorem refinedEndY0_of_band (P : PdfParams) (ab : Option (List Band))
    (page : ℕ) (pc : ℤ) (b : Band) (hb : bestBandFor P ab page pc = some b) :
    refinedEndY0 P ab page pc = b.startRow := by
  unfold refinedEndY0
  rw [hb]

theorem srcYpre_of_band (P : PdfParams) (ab : Option (List Band)) (page : ℕ)
    (pc : ℤ) (b : Band) (hb : bestBandFor P ab page pc = some b) :
    srcYpre P ab page pc = pc := by
  unfold srcYpre useOverlapB
  rw [hb]
  simp

theorem pageStep_eq_floor (P : PdfParams) (ab : Option (List Band)) (page : ℕ)
    (pc : ℤ) (hfl : floorB P ab page pc = true) :
    pageStep P ab page pc =
      (⟨pc, max 1 (min (min (pc + jsRound (contentHPx P)) (P.canvasH : ℤ) - pc)
          (jsRound (contentHPx P))), false, none⟩,
        min (pc + jsRound (contentHPx P)) (P.canvasH : ℤ)) := by
  unfold pageStep
  rw [hfl]
  simp

theorem pageStep_eq_band (P : PdfParams) (ab : Option (List Band)) (page : ℕ)
    (pc : ℤ) (b : Band) (hfl : floorB P ab page pc = false)
    (hb : bestBandFor P ab page pc = some b) :
    pageStep P ab page pc =
      (⟨pc, max 1 (min (b.startRow - pc) (jsRound (contentHPx P))), false, some b⟩,
        b.endRow + 1) := by
  have huo : useOverlapB P ab page pc = false := by
    unfold useOverlapB
    rw [hb]
    simp
  unfold pageStep
  rw [hfl, hb, huo, refinedEndY0_of_band P ab page pc b hb,
    srcYpre_of_band P ab page pc b hb]
  simp

theorem pageStep_eq_noband (P : PdfParams) (ab : Option (List Band)) (page : ℕ)
    (pc : ℤ) (hfl : floorB P ab page pc = false)
    (hb : bestBandFor P ab page pc = none) :
    pageStep P ab page pc =
      (⟨srcYpre P ab page pc,
          max 1 (min (nominalEndY P page - srcYpre P ab page pc)
            (jsRound (contentHPx P))),
          useOverlapB P ab page pc, none⟩,
        nominalEndY P page) := by
  unfold pageStep
  rw [hfl, hb]
  have hr : refinedEndY0 P ab page pc = nominalEndY P page := by
    unfold refinedEndY0
    rw [hb]
  rw [hr]
  simp

/-- C5, confirmed: whenever a page's cut consumed a whitespace band, the
next page's `prevCutY` is `band.end + 1` — past the entire band — and in
particular not `band.start`; it also strictly advances past the previous
cut. -/
theorem pageStep_band_advance (P : PdfParams) (ab : Option (List Band))
    (page : ℕ) (pc : ℤ) (b : Band)
    (hb : ((pageStep P ab page pc).1).consumedBand = some b)
    (hwf : b.startRow ≤ b.endRow) :
    (pageStep P ab page pc).2 = b.endRow + 1 ∧
    (pageStep P ab page pc).2 ≠ b.startRow ∧
    pc < (pageStep P ab page pc).2 := by
  have hb0 : bestBandFor P ab page pc = some b ∧ floorB P ab page pc = false := by
    by_cases hfl : floorB P ab page pc = true
    · rw [pageStep_eq_floor P ab page pc hfl] at hb
      simp at hb
    · have hfl' : floorB P ab page pc = false := by
        cases hflv : floorB P ab page pc
        · rfl
        · exact absurd hflv hfl
      cases hbv : bestBandFor P ab page pc with
      | none =>
          rw [pageStep_eq_noband P ab page pc hfl' hbv] at hb
          simp at hb
      | some b' =>
          rw [pageStep_eq_band P ab page pc b' hfl' hbv] at hb
          simp only [Option.some.injEq] at hb
          subst hb
          exact ⟨rfl, hfl'⟩
  obtain ⟨hbv, hfl⟩ := hb0
  obtain ⟨bands, -, -, hprog⟩ := bestBandFor_sound P ab page pc b hbv
  rw [pageStep_eq_band P ab page pc b hfl hbv]
  exact ⟨rfl, by omega, by omega⟩

/-- C9, confirmed: when the refined slice height `refinedEndY - srcY` falls
below 5% of a page (`contentHPx * 0.05`), the paginator discards the
refinement: the slice restarts at `prevCutY` with no overlap and no band
consumed, and the cut advances exactly one page of source rows from
`prevCutY`, clamped to the canvas bottom. -/
theorem pageStep_safety_floor (P : PdfParams) (ab : Option (List Band))
    (page : ℕ) (pc : ℤ)
    (hfl : ((refinedEndY0 P ab page pc - srcYpre P ab page pc : ℤ) : ℚ) <
      contentHPx P * (1/20)) :
    (pageStep P ab page pc).1.srcY = pc ∧
    (pageStep P ab page pc).1.usedOverlap = false ∧
    (pageStep P ab page pc).1.consumedBand = none ∧
    (pageStep P ab page pc).2 = min (pc + jsRound (contentHPx P)) (P.canvasH : ℤ) ∧
    (pageStep P ab page pc).1.srcH =
      max 1 (min ((pageStep P ab page pc).2 - pc) (jsRound (contentHPx P))) := by
  have hflB : floorB P ab page pc = true := by
    unfold floorB
    exact decide_eq_true hfl
  rw [pageStep_eq_floor P ab page pc hflB]
  exact ⟨rfl, rfl, rfl, rfl, rfl⟩

theorem paginateFrom_length (P : PdfParams) (ab : Option (List Band)) :
    ∀ (n page : ℕ) (pc : ℤ), (paginateFrom P ab n page pc).length = n := by
  intro n
  induction n with
  | zero => intro page pc; rfl
  | succ n ih =>
      intro page pc
      rw [paginateFrom]
      simp only [List.length_cons, ih]

theorem pageStep_srcH_ge_one (P : PdfParams) (ab : Option (List Band))
    (page : ℕ) (pc : ℤ) : 1 ≤ (pageStep P ab page pc).1.srcH :=
  le_max_left _ _

theorem paginateFrom_srcH_ge_one (P : PdfParams) (ab : Option (List Band)) :
    ∀ (n page : ℕ) (pc : ℤ), ∀ s ∈ paginateFrom P ab n page pc, 1 ≤ s.srcH := by
  intro n
  induction n with
  | zero => intro page pc s hs; simp [paginateFrom] at hs
  | succ n ih =>
      intro page pc s hs
      rw [paginateFrom] at hs
      rcases List.mem_cons.mp hs with rfl | hs
      · exact pageStep_srcH_ge_one P ab page pc
      · exact ih _ _ s hs

/-- C10, confirmed: for any raster and page size the paginator emits exactly
`Math.ceil(scaledHeight / imageContentH)` page slices, and every slice has a
strictly positive source height (`srcH = Math.max(1, ...) ≥ 1`), even when a
degenerate refined cut would have produced a non-positive height. -/
theorem appendCanvasToPagedPdf_count (P : PdfParams) (data : Option (ℕ → ℕ)) :
    (appendCanvasToPagedPdfSlices P data).length =
      (⌈scaledHeight P / imageContentH P⌉).toNat ∧
    ∀ s ∈ appendCanvasToPagedPdfSlices P data, 1 ≤ s.srcH := by
  constructor
  · exact paginateFrom_length P _ (pagesNeeded P) 0 0
  · exact paginateFrom_srcH_ge_one P _ (pagesNeeded P) 0 0

theorem useOverlapB_none (P : PdfParams) (page : ℕ) (pc : ℤ) :
    useOverlapB P none page pc = false := by
  unfold useOverlapB
  simp [Option.isSome]

theorem pageStep_none_flags (P : PdfParams) (page : ℕ) (pc : ℤ) :
    (pageStep P none page pc).1.consumedBand = none ∧
    (pageStep P none page pc).1.usedOverlap = false := by
  have hb : bestBandFor P none page pc = none := rfl
  by_cases hfl : floorB P none page pc = true
  · rw [pageStep_eq_floor P none page pc hfl]
    exact ⟨rfl, rfl⟩
  · have hfl' : floorB P none page pc = false := by
      cases hflv : floorB P none page pc
      · rfl
      · exact absurd hflv hfl
    rw [pageStep_eq_noband P none page pc hfl' hb]
    exact ⟨rfl, useOverlapB_none P page pc⟩

/-- C8, confirmed: when reading the raster's pixels fails (tainted canvas /
missing context — modelled by `none` pixel data), the `catch` leaves
`allBands = null` and pagination still runs to completion: exactly
`pagesNeeded` slices are emitted and every page uses the band-less
raw-advancement fallback (no band consumed; the overlap flag is never set,
since the overlap branch lives inside the bands-available block). -/
theorem appendCanvasToPagedPdf_degrades (P : PdfParams) :
    appendCanvasToPagedPdfSlices P none = appendCanvasSlices P none ∧
    (appendCanvasToPagedPdfSlices P none).length = pagesNeeded P ∧
    ∀ s ∈ appendCanvasToPagedPdfSlices P none,
      s.consumedBand = none ∧ s.usedOverlap = false ∧ 1 ≤ s.srcH := by
  refine ⟨rfl, paginateFrom_length P none (pagesNeeded P) 0 0, ?_⟩
  have hgen : ∀ (n page : ℕ) (pc : ℤ), ∀ s ∈ paginateFrom P none n page pc,
      s.consumedBand = none ∧ s.usedOverlap = false ∧ 1 ≤ s.srcH := by
    intro n
    induction n with
    | zero => intro page pc s hs; simp [paginateFrom] at hs
    | succ n ih =>
        intro page pc s hs
        rw [paginateFrom] at hs
        rcases List.mem_cons.mp hs with rfl | hs
        · exact ⟨(pageStep_none_flags P page pc).1,
            (pageStep_none_flags P page pc).2, pageStep_srcH_ge_one P none page pc⟩
        · exact ih _ _ s hs
  exact hgen (pagesNeeded P) 0 0

/-- A 343×1000 A4 export with no footer: one page is ≈500.06 source rows. -/
def P343 : PdfParams := ⟨343, 1000, true, 1, 0⟩

/-- The single whitespace band at rows 480–490 of the C5 scenario. -/
def band480 : Band := ⟨480, 490, 485, 11⟩

theorem P343_pagesNeeded : pagesNeeded P343 = 2 := by
  unfold pagesNeeded scaledHeight imgHeightMm scaleOf contentW imgWidthMm
    pxToMm exportDpr pageDimsW imageContentH contentH pageDimsH
    footerReservedMm jsRound P343
  norm_num [marginMm]
  rw [show (⌈(190000 / 95011 : ℚ)⌉ : ℤ) = 2 by
    rw [Int.ceil_eq_iff] <;> norm_num]
  rfl

theorem P343_nominalEndY0 : nominalEndY P343 0 = 500 := by
  unfold nominalEndY sourceEndMm imgHeightMm scaleOf contentW imgWidthMm
    pxToMm exportDpr pageDimsW imageContentH contentH pageDimsH
    footerReservedMm jsRound P343
  norm_num [min_def, marginMm]

theorem P343_contentHPx : contentHPx P343 = 95011/190 := by
  unfold contentHPx imageContentH contentH pageDimsH footerReservedMm
    scaleOf contentW pageDimsW imgWidthMm imgHeightMm pxToMm
    exportDpr jsRound P343
  norm_num [marginMm]

theorem P343_bestBand : bestBandFor P343 (some [band480]) 0 0 = some band480 := by
  have h1 : pass1Go 0 500 (contentHPx P343) [band480] none = none := by
    rw [pass1Go]
    rw [if_neg (by unfold band480; norm_num : ¬ (band480.endRow ≤ (0:ℤ))),
      if_pos (by unfold band480; norm_num : band480.centre < ((500:ℤ):ℚ))]
    rfl
  have h2 : pass2Go 0 500 [band480] none = some band480 := by
    rw [pass2Go]
    rw [if_neg (by unfold band480; norm_num : ¬ (band480.endRow ≤ (0:ℤ))),
      if_neg (by unfold band480; norm_num : ¬ (((500:ℤ):ℚ) ≤ band480.centre))]
    rfl
  unfold bestBandFor
  rw [P343_nominalEndY0]
  simp [P343_pagesNeeded, h1, h2]

theorem P343_floorB : floorB P343 (some [band480]) 0 0 = false := by
  unfold floorB
  rw [refinedEndY0_of_band P343 (some [band480]) 0 0 band480 P343_bestBand,
    srcYpre_of_band P343 (some [band480]) 0 0 band480 P343_bestBand]
  rw [P343_contentHPx]
  unfold band480
  norm_num

/-- Concrete instance of the C5 theorem: 1000-row raster, ≈500-row pages,
single band at rows 480–490 — page 2 starts at row 491, not 481. -/
theorem pageStep_band_advance_witness :
    (pageStep P343 (some [band480]) 0 0).2 = band480.endRow + 1 ∧
    (pageStep P343 (some [band480]) 0 0).2 ≠ band480.startRow ∧
    (0:ℤ) < (pageStep P343 (some [band480]) 0 0).2 := by
  have hb : ((pageStep P343 (some [band480]) 0 0).1).consumedBand = some band480 := by
    rw [pageStep_eq_band P343 (some [band480]) 0 0 band480 P343_floorB P343_bestBand]
  exact pageStep_band_advance P343 (some [band480]) 0 0 band480 hb (by decide)

/-- A 190×1109 A4 export with no footer: pages are exactly 277 source rows
and the last page would hold a single row. -/
def P9 : PdfParams := ⟨190, 1109, true, 1, 0⟩

theorem P9_refined : refinedEndY0 P9 none 4 1108 = 1109 := by
  unfold refinedEndY0 bestBandFor nominalEndY sourceEndMm imgHeightMm scaleOf
    contentW imgWidthMm pxToMm exportDpr pageDimsW imageContentH
    contentH pageDimsH footerReservedMm jsRound P9
  norm_num [min_def, marginMm]

theorem P9_srcYpre : srcYpre P9 none 4 1108 = 1108 := by
  unfold srcYpre
  rw [useOverlapB_none P9 4 1108]
  simp

theorem P9_contentHPx : contentHPx P9 = 277 := by
  unfold contentHPx imageContentH contentH pageDimsH footerReservedMm
    scaleOf contentW pageDimsW imgWidthMm imgHeightMm pxToMm
    exportDpr jsRound P9
  norm_num [marginMm]

/-- Concrete instance of the C9 theorem: last page of a 1109-row raster at
277 rows per page leaves 1 row (< 5% of 277), triggering the safety floor. -/
theorem pageStep_safety_floor_witness :
    ((refinedEndY0 P9 none 4 1108 - srcYpre P9 none 4 1108 : ℤ) : ℚ) <
      contentHPx P9 * (1/20) ∧
    ((pageStep P9 none 4 1108).1.srcY = 1108 ∧
      (pageStep P9 none 4 1108).1.usedOverlap = false ∧
      (pageStep P9 none 4 1108).1.consumedBand = none ∧
      (pageStep P9 none 4 1108).2 =
        min (1108 + jsRound (contentHPx P9)) ((P9.canvasH : ℕ) : ℤ) ∧
      (pageStep P9 none 4 1108).1.srcH =
        max 1 (min ((pageStep P9 none 4 1108).2 - 1108)
          (jsRound (contentHPx P9)))) := by
  have hfl : ((refinedEndY0 P9 none 4 1108 - srcYpre P9 none 4 1108 : ℤ) : ℚ) <
      contentHPx P9 * (1/20) := by
    rw [P9_refined, P9_srcYpre, P9_contentHPx]
    norm_num
  exact ⟨hfl, pageStep_safety_floor P9 none 4 1108 hfl⟩

/-! #### Closed-form evaluation of `bandScan` -/

theorem bandScan_zero (score : ℕ → ℚ) (toY : ℕ) (thr : ℚ) (minW : ℤ)
    (r : ℕ) (st : Option ℕ) : bandScan score toY thr minW r 0 st = [] := rfl

theorem bandScan_enter (score : ℕ → ℚ) (toY : ℕ) (thr : ℚ) (minW : ℤ)
    (r fuel : ℕ) (h : r ≤ toY ∧ score r < thr) :
    bandScan score toY thr minW r (fuel + 1) none =
      bandScan score toY thr minW (r + 1) fuel (some r) := by
  rw [bandScan, if_pos h]

theorem bandScan_skip (score : ℕ → ℚ) (toY : ℕ) (thr : ℚ) (minW : ℤ)
    (r fuel : ℕ) (h : ¬(r ≤ toY ∧ score r < thr)) :
    bandScan score toY thr minW r (fuel + 1) none =
      bandScan score toY thr minW (r + 1) fuel none := by
  rw [bandScan, if_neg h]

theorem bandScan_stay (score : ℕ → ℚ) (toY : ℕ) (thr : ℚ) (minW : ℤ)
    (r fuel s : ℕ) (h : r ≤ toY ∧ score r < thr) :
    bandScan score toY thr minW r (fuel + 1) (some s) =
      bandScan score toY thr minW (r + 1) fuel (some s) := by
  rw [bandScan, if_pos h]

theorem bandScan_flush (score : ℕ → ℚ) (toY : ℕ) (thr : ℚ) (minW : ℤ)
    (r fuel s : ℕ) (h : ¬(r ≤ toY ∧ score r < thr)) :
    bandScan score toY thr minW r (fuel + 1) (some s) =
      (if minW ≤ (r : ℤ) - 1 - (s : ℤ) + 1 then
        [⟨(s : ℤ), (r : ℤ) - 1, ((s : ℚ) + ((r : ℚ) - 1)) / 2,
          (r : ℤ) - 1 - (s : ℤ) + 1⟩]
      else []) ++ bandScan score toY thr minW (r + 1) fuel none := by
  rw [bandScan, if_neg h]

theorem bandScan_skipN (score : ℕ → ℚ) (toY : ℕ) (thr : ℚ) (minW : ℤ) :
    ∀ (k r fuel : ℕ),
      (∀ i, r ≤ i → i < r + k → ¬(i ≤ toY ∧ score i < thr)) →
      bandScan score toY thr minW r (k + fuel) none =
        bandScan score toY thr minW (r + k) fuel none := by
  intro k
  induction k with
  | zero => intro r fuel _; simp
  | succ k ih =>
      intro r fuel h
      have hstep : ¬(r ≤ toY ∧ score r < thr) := h r le_rfl (by omega)
      have hf : k + 1 + fuel = (k + fuel) + 1 := by omega
      rw [hf, bandScan_skip score toY thr minW r (k + fuel) hstep]
      have harg : r + (k + 1) = (r + 1) + k := by omega
      rw [harg]
      exact ih (r + 1) fuel (fun i h1 h2 => h i (by omega) (by omega))

theorem bandScan_stayN (score : ℕ → ℚ) (toY : ℕ) (thr : ℚ) (minW : ℤ) :
    ∀ (k r fuel s : ℕ),
      (∀ i, r ≤ i → i < r + k → (i ≤ toY ∧ score i < thr)) →
      bandScan score toY thr minW r (k + fuel) (some s) =
        bandScan score toY thr minW (r + k) fuel (some s) := by
  intro k
  induction k with
  | zero => intro r fuel s _; simp
  | succ k ih =>
      intro r fuel s h
      have hstep : r ≤ toY ∧ score r < thr := h r le_rfl (by omega)
      have hf : k + 1 + fuel = (k + fuel) + 1 := by omega
      rw [hf, bandScan_stay score toY thr minW r (k + fuel) s hstep]
      have harg : r + (k + 1) = (r + 1) + k := by omega
      rw [harg]
      exact ih (r + 1) fuel s (fun i h1 h2 => h i (by omega) (by omega))

/-! #### The C6 raster: 2×16, white rows 0, 4–6 and 15, black elsewhere -/

/-- RGBA pixel data of a 2-column, 16-row raster whose sampled column 0 is
white (255) on rows 0, 4–6 and 15 and black (0) on every other row. -/
def data16 : ℕ → ℕ := fun off =>
  let r := off / 8
  if r = 0 ∨ (4 ≤ r ∧ r ≤ 6) ∨ r = 15 then 255 else 0

/-- The 2×16 A4 export of the C6 scenario. -/
def P16 : PdfParams := ⟨2, 16, true, 1, 0⟩

/-- The whitespace band at rows 4–6 found in `data16`. -/
def band456 : Band := ⟨4, 6, 5, 3⟩

theorem sampleCols_two : sampleCols 2 4 = [0] := rfl

theorem edgeRowsOf_16 : edgeRowsOf 16 = 1 := by
  unfold edgeRowsOf
  rw [show jsRound ((16:ℕ) * (3/100) : ℚ) = 0 by unfold jsRound; norm_num]
  rfl

theorem data16_bg : detectBackgroundBrightness data16 2 16 4 = 255 := by
  unfold detectBackgroundBrightness
  rw [edgeRowsOf_16, sampleCols_two]
  simp only [List.range_succ, List.range_zero, List.nil_append,
    List.map_cons, List.map_nil, List.flatten]
  unfold brightnessAt data16
  norm_num

theorem data16_score (r : ℕ) :
    rowScore data16 2 4 255 r =
      if r = 0 ∨ (4 ≤ r ∧ r ≤ 6) ∨ r = 15 then 0 else 255 := by
  have h0 : 8 * r / 8 = r := by omega
  have h1 : (8 * r + 1) / 8 = r := by omega
  have h2 : (8 * r + 2) / 8 = r := by omega
  unfold rowScore
  rw [sampleCols_two]
  simp only [List.map_cons, List.map_nil, List.sum_cons, List.sum_nil,
    List.length_cons, List.length_nil]
  unfold brightnessAt data16
  rw [show (r * 2 + 0) * 4 = 8 * r by ring]
  simp only [h0, h1, h2]
  by_cases hc : r = 0 ∨ (4 ≤ r ∧ r ≤ 6) ∨ r = 15
  · simp only [if_pos hc]
    norm_num
  · simp only [if_neg hc]
    norm_num

theorem data16_bands :
    findAllWhitespaceBands
      (fun r => rowScore data16 2 4 (detectBackgroundBrightness data16 2 16 4) r)
      0 (16 - 1) 12 2 = [band456] := by
  unfold findAllWhitespaceBands
  simp only [data16_bg, Nat.reduceSub, Nat.reduceAdd]
  have hB : ∀ r, r = 0 ∨ (4 ≤ r ∧ r ≤ 6) ∨ r = 15 →
      (r ≤ 15 ∧ rowScore data16 2 4 255 r < 12) := by
    intro r hr
    refine ⟨by omega, ?_⟩
    rw [data16_score, if_pos hr]
    norm_num
  have hN : ∀ r, ¬(r = 0 ∨ (4 ≤ r ∧ r ≤ 6) ∨ r = 15) →
      ¬(r ≤ 15 ∧ rowScore data16 2 4 255 r < 12) := by
    intro r hr hcon
    rw [data16_score, if_neg hr] at hcon
    have := hcon.2
    norm_num at this
  have hN16 : ¬((16:ℕ) ≤ 15 ∧ rowScore data16 2 4 255 16 < 12) := by
    intro hcon
    omega
  rw [show (17:ℕ) = 16 + 1 from rfl,
    bandScan_enter _ 15 12 2 0 16 (hB 0 (by omega))]
  rw [show (16:ℕ) = 15 + 1 from rfl,
    bandScan_flush _ 15 12 2 1 15 0 (hN 1 (by omega))]
  rw [if_neg (by norm_num), List.nil_append]
  rw [show (15:ℕ) = 2 + 13 from rfl,
    bandScan_skipN _ 15 12 2 2 2 13 (fun i hi1 hi2 => hN i (by omega))]
  simp only [Nat.reduceAdd]
  rw [show (13:ℕ) = 12 + 1 from rfl,
    bandScan_enter _ 15 12 2 4 12 (hB 4 (by omega))]
  rw [show (12:ℕ) = 2 + 10 from rfl,
    bandScan_stayN _ 15 12 2 2 5 10 4 (fun i hi1 hi2 => hB i (by omega))]
  simp only [Nat.reduceAdd]
  rw [show (10:ℕ) = 9 + 1 from rfl,
    bandScan_flush _ 15 12 2 7 9 4 (hN 7 (by omega))]
  rw [if_pos (by norm_num)]
  rw [show (9:ℕ) = 7 + 2 from rfl,
    bandScan_skipN _ 15 12 2 7 8 2 (fun i hi1 hi2 => hN i (by omega))]
  simp only [Nat.reduceAdd]
  rw [show (2:ℕ) = 1 + 1 from rfl,
    bandScan_enter _ 15 12 2 15 1 (hB 15 (by omega))]
  rw [show (1:ℕ) = 0 + 1 from rfl,
    bandScan_flush _ 15 12 2 16 0 15 hN16]
  rw [if_neg (by norm_num), List.nil_append, bandScan_zero]
  unfold band456
  norm_num

theorem P16_allBands : allBandsOf (some data16) 2 16 = some [band456] := by
  unfold allBandsOf
  simp only []
  rw [data16_bands]

theorem P16_contentHPx : contentHPx P16 = 277/95 := by
  unfold contentHPx imageContentH contentH pageDimsH footerReservedMm
    scaleOf contentW pageDimsW imgWidthMm imgHeightMm pxToMm
    exportDpr jsRound P16
  norm_num [marginMm]

theorem P16_pagesNeeded : pagesNeeded P16 = 6 := by
  unfold pagesNeeded scaledHeight imgHeightMm scaleOf contentW imgWidthMm
    pxToMm exportDpr pageDimsW imageContentH contentH pageDimsH
    footerReservedMm jsRound P16
  norm_num [marginMm]
  rw [show (⌈(1520 / 277 : ℚ)⌉ : ℤ) = 6 by rw [Int.ceil_eq_iff] <;> norm_num]
  rfl

theorem P16_nominalEndY0 : nominalEndY P16 0 = 3 := by
  unfold nominalEndY sourceEndMm imgHeightMm scaleOf contentW imgWidthMm
    pxToMm exportDpr pageDimsW imageContentH contentH pageDimsH
    footerReservedMm jsRound P16
  norm_num [min_def, marginMm]

theorem P16_bestBand : bestBandFor P16 (some [band456]) 0 0 = some band456 := by
  have h1 : pass1Go 0 3 (contentHPx P16) [band456] none = some band456 := by
    rw [pass1Go]
    rw [if_neg (by unfold band456; norm_num : ¬ (band456.endRow ≤ (0:ℤ))),
      if_neg (by unfold band456; norm_num : ¬ (band456.centre < ((3:ℤ):ℚ)))]
    simp only []
    rw [if_pos (by rw [P16_contentHPx]; unfold band456; norm_num :
      band456.centre - ((3:ℤ):ℚ) > contentHPx P16 * (1/2))]
    rfl
  unfold bestBandFor
  rw [P16_nominalEndY0]
  simp [P16_pagesNeeded, h1]

theorem P16_floorB : floorB P16 (some [band456]) 0 0 = false := by
  unfold floorB
  rw [refinedEndY0_of_band P16 (some [band456]) 0 0 band456 P16_bestBand,
    srcYpre_of_band P16 (some [band456]) 0 0 band456 P16_bestBand]
  rw [P16_contentHPx]
  unfold band456
  norm_num

/-- Counterexample to the literal C6 claim: for the concrete 2×16 raster
`data16` the pixel pipeline yields the single band at rows 4–6, whose centre
is 2 rows past the nominal page end while half a page is only ≈1.46 rows —
yet pass 1 selects it and the page consumes it as its cut. -/
theorem pass1_distance_cap_cex :
    allBandsOf (some data16) P16.canvasW P16.canvasH = some [band456] ∧
    (pageStep P16 (allBandsOf (some data16) P16.canvasW P16.canvasH)
      0 0).1.consumedBand = some band456 ∧
    contentHPx P16 * (1/2) <
      band456.centre - ((nominalEndY P16 0 : ℤ) : ℚ) ∧
    (0:ℤ) < band456.endRow ∧
    ((nominalEndY P16 0 : ℤ) : ℚ) ≤ band456.centre := by
  have hab : allBandsOf (some data16) P16.canvasW P16.canvasH =
      some [band456] := P16_allBands
  refine ⟨hab, ?_, ?_, ?_, ?_⟩
  · rw [hab, pageStep_eq_band P16 (some [band456]) 0 0 band456 P16_floorB
      P16_bestBand]
  · rw [P16_contentHPx, P16_nominalEndY0]
    unfold band456
    norm_num
  · unfold band456
    norm_num
  · rw [P16_nominalEndY0]
    unfold band456
    norm_num

/-- C6, corrected: pass 1 checks the 50% distance cap only AFTER recording
the current band as the best candidate, so the first band past the nominal
page end is always selected, no matter how far ahead its centre lies; the
cap merely stops the scan afterwards. -/
theorem pass1Go_first_qualifying (pc ne : ℤ) (cHPx : ℚ) :
    ∀ (pre : List Band) (b : Band) (rest : List Band),
      (∀ a ∈ pre, a.endRow ≤ pc ∨ a.centre < ((ne : ℤ) : ℚ)) →
      pc < b.endRow → ((ne : ℤ) : ℚ) ≤ b.centre →
      cHPx * (1/2) < b.centre - ((ne : ℤ) : ℚ) →
      pass1Go pc ne cHPx (pre ++ b :: rest) none = some b := by
  intro pre
  induction pre with
  | nil =>
      intro b rest _ hb1 hb2 hfar
      rw [List.nil_append, pass1Go]
      rw [if_neg (not_le.mpr hb1), if_neg (not_lt.mpr hb2)]
      simp only []
      rw [if_pos hfar]
      rfl
  | cons a pre ih =>
      intro b rest hpre hb1 hb2 hfar
      rw [List.cons_append, pass1Go]
      by_cases h1 : a.endRow ≤ pc
      · rw [if_pos h1]
        exact ih b rest (fun x hx => hpre x (List.mem_cons_of_mem a hx))
          hb1 hb2 hfar
      · rw [if_neg h1]
        have h2 : a.centre < ((ne : ℤ) : ℚ) :=
          (hpre a (List.mem_cons_self a pre)).resolve_left h1
        rw [if_pos h2]
        exact ih b rest (fun x hx => hpre x (List.mem_cons_of_mem a hx))
          hb1 hb2 hfar

/-- Concrete instance of the C6 theorem at the `data16` scenario: the band
at rows 4–6 (distance 2 > cap ≈1.46) is selected by pass 1. -/
theorem pass1Go_first_qualifying_witness :
    pass1Go 0 3 (277/95) ([] ++ band456 :: []) none = some band456 :=
  pass1Go_first_qualifying 0 3 (277/95) [] band456 []
    (by intro a ha; simp at ha)
    (by unfold band456; norm_num)
    (by unfold band456; norm_num)
    (by unfold band456; norm_num)

/-! #### Well-formedness of detected bands -/

theorem bandScan_mem_wf (score : ℕ → ℚ) (toY : ℕ) (thr : ℚ) (minW : ℤ)
    (hminW : 1 ≤ minW) :
    ∀ (fuel r : ℕ) (st : Option ℕ), r + fuel ≤ toY + 2 →
      ∀ b ∈ bandScan score toY thr minW r fuel st,
        0 ≤ b.startRow ∧ b.startRow ≤ b.endRow ∧ b.endRow ≤ (toY : ℤ) := by
  intro fuel
  induction fuel with
  | zero => intro r st _ b hb; simp [bandScan_zero] at hb
  | succ fuel ih =>
      intro r st hr b hb
      by_cases hc : r ≤ toY ∧ score r < thr
      · cases st with
        | none =>
            rw [bandScan_enter score toY thr minW r fuel hc] at hb
            exact ih (r + 1) (some r) (by omega) b hb
        | some s =>
            rw [bandScan_stay score toY thr minW r fuel s hc] at hb
            exact ih (r + 1) (some s) (by omega) b hb
      · cases st with
        | none =>
            rw [bandScan_skip score toY thr minW r fuel hc] at hb
            exact ih (r + 1) none (by omega) b hb
        | some s =>
            rw [bandScan_flush score toY thr minW r fuel s hc] at hb
            rcases List.mem_append.mp hb with hb1 | hb2
            · by_cases hw : minW ≤ (r : ℤ) - 1 - (s : ℤ) + 1
              · rw [if_pos hw] at hb1
                simp at hb1
                subst hb1
                dsimp only
                omega
              · rw [if_neg hw] at hb1
                simp at hb1
            · exact ih (r + 1) none (by omega) b hb2

theorem allBandsOf_wf (data : Option (ℕ → ℕ)) (P : PdfParams)
    (hch : 1 ≤ P.canvasH) :
    ∀ bands, allBandsOf data P.canvasW P.canvasH = some bands →
      ∀ b ∈ bands,
        0 ≤ b.startRow ∧ b.startRow ≤ b.endRow ∧ b.endRow < (P.canvasH : ℤ) := by
  intro bands hab b hb
  cases data with
  | none => simp [allBandsOf] at hab
  | some d =>
      unfold allBandsOf at hab
      simp only [Option.some.injEq] at hab
      subst hab
      unfold findAllWhitespaceBands at hb
      have hwf := bandScan_mem_wf _ (P.canvasH - 1) 12 2 (by norm_num)
        (P.canvasH - 1 + 2 - 0) 0 none (by omega) b hb
      refine ⟨hwf.1, hwf.2.1, ?_⟩
      have h2 := hwf.2.2
      omega

/-! #### Per-step paginator facts -/

theorem pageStep_facts (P : PdfParams) (ab : Option (List Band)) (page : ℕ)
    (pc : ℤ)
    (hwf : ∀ bands, ab = some bands → ∀ b ∈ bands,
      0 ≤ b.startRow ∧ b.startRow ≤ b.endRow ∧ b.endRow < (P.canvasH : ℤ))
    (hpc0 : 0 ≤ pc) (hpcH : pc ≤ (P.canvasH : ℤ))
    (hch : 1 ≤ P.canvasH) (hcw : 1 ≤ P.canvasW) (hfc : P.footerCount ≤ 2) :
    0 ≤ (pageStep P ab page pc).2 ∧
    (pageStep P ab page pc).2 ≤ (P.canvasH : ℤ) ∧
    pc - OVERLAP_PX ≤ (pageStep P ab page pc).1.srcY ∧
    (pageStep P ab page pc).1.srcY ≤ pc ∧
    (pageStep P ab page pc).1.srcY ≤ (pageStep P ab page pc).2 ∧
    1 ≤ (pageStep P ab page pc).1.srcH ∧
    (pageStep P ab page pc).1.srcH ≤ jsRound (contentHPx P) := by
  have hj := one_le_jsRound_contentHPx P hch hcw hfc
  have ho : OVERLAP_PX = (60 : ℤ) := rfl
  by_cases hfl : floorB P ab page pc = true
  · rw [pageStep_eq_floor P ab page pc hfl]
    dsimp only
    refine ⟨?_, ?_, ?_, ?_, ?_, ?_, ?_⟩ <;> omega
  · have hfl' : floorB P ab page pc = false := by
      cases h : floorB P ab page pc
      · rfl
      · exact absurd h hfl
    cases hbv : bestBandFor P ab page pc with
    | some b =>
        obtain ⟨bands, habs, hbmem, hprog⟩ := bestBandFor_sound P ab page pc b hbv
        obtain ⟨hb0, hbse, hbeH⟩ := hwf bands habs b hbmem
        rw [pageStep_eq_band P ab page pc b hfl' hbv]
        dsimp only
        refine ⟨?_, ?_, ?_, ?_, ?_, ?_, ?_⟩ <;> omega
    | none =>
        rw [pageStep_eq_noband P ab page pc hfl' hbv]
        dsimp only
        have hsy : pc - OVERLAP_PX ≤ srcYpre P ab page pc ∧
            srcYpre P ab page pc ≤ pc := by
          unfold srcYpre
          split <;> omega
        have hnf : srcYpre P ab page pc ≤ nominalEndY P page := by
          have hfl2 : ¬ (((refinedEndY0 P ab page pc -
              srcYpre P ab page pc : ℤ) : ℚ) < contentHPx P * (1/20)) := by
            intro hcon
            have ht : floorB P ab page pc = true := by
              unfold floorB
              exact decide_eq_true hcon
            rw [ht] at hfl'
            cases hfl'
          have hr0 : refinedEndY0 P ab page pc = nominalEndY P page := by
            unfold refinedEndY0
            rw [hbv]
          rw [hr0] at hfl2
          push_neg at hfl2
          have hpos := contentHPx_pos P hch hcw hfc
          have hq : (0:ℚ) <
              ((nominalEndY P page - srcYpre P ab page pc : ℤ) : ℚ) :=
            lt_of_lt_of_le (by positivity) hfl2
          have hz : (0:ℤ) < nominalEndY P page - srcYpre P ab page pc := by
            exact_mod_cast hq
          omega
        have hnn := nominalEndY_nonneg P page hch hcw hfc
        have hnl := nominalEndY_le P page
        refine ⟨?_, ?_, ?_, ?_, ?_, ?_, ?_⟩ <;> omega

/-! #### The paginator's true slice invariants -/

theorem paginateFrom_inv (P : PdfParams) (ab : Option (List Band))
    (hwf : ∀ bands, ab = some bands → ∀ b ∈ bands,
      0 ≤ b.startRow ∧ b.startRow ≤ b.endRow ∧ b.endRow < (P.canvasH : ℤ))
    (hch : 1 ≤ P.canvasH) (hcw : 1 ≤ P.canvasW) (hfc : P.footerCount ≤ 2) :
    ∀ (n page : ℕ) (pc : ℤ), 0 ≤ pc → pc ≤ (P.canvasH : ℤ) →
      (∀ s ∈ paginateFrom P ab n page pc,
        1 ≤ s.srcH ∧ s.srcH ≤ jsRound (contentHPx P)) ∧
      (∀ s, (paginateFrom P ab n page pc).head? = some s →
        pc - OVERLAP_PX ≤ s.srcY ∧ s.srcY ≤ pc) ∧
      List.Chain' (fun s t => s.srcY - OVERLAP_PX ≤ t.srcY)
        (paginateFrom P ab n page pc) := by
  intro n
  induction n with
  | zero =>
      intro page pc h0 hH
      refine ⟨?_, ?_, ?_⟩ <;> simp [paginateFrom]
  | succ n ih =>
      intro page pc h0 hH
      obtain ⟨hA, hB, hC, hD, hE, hF, hG⟩ :=
        pageStep_facts P ab page pc hwf h0 hH hch hcw hfc
      have ihr := ih (page + 1) ((pageStep P ab page pc).2) hA hB
      rw [paginateFrom]
      refine ⟨?_, ?_, ?_⟩
      · intro s hs
        rcases List.mem_cons.mp hs with rfl | hs
        · exact ⟨hF, hG⟩
        · exact ihr.1 s hs
      · intro s hs
        simp only [List.head?_cons, Option.some.injEq] at hs
        subst hs
        exact ⟨hC, hD⟩
      · rw [List.chain'_cons']
        refine ⟨?_, ihr.2.2⟩
        intro y hy
        have hh := ihr.2.1 y hy
        have ho : OVERLAP_PX = (60 : ℤ) := rfl
        omega

/-- C7, corrected: the literal invariants fail (counterexample below), but
the paginator does guarantee: every slice's height satisfies
`1 ≤ srcH ≤ Math.round(contentHPx)` — bounded by the ROUNDED page height,
which can exceed `contentHPx` itself by up to half a pixel — and
consecutive slices' start rows never move backwards by more than one
`OVERLAP_PX` (`srcY_next ≥ srcY_prev - 60`); `srcY` is not monotone and
gaps larger than `OVERLAP_PX` can occur after a consumed band. -/
theorem appendCanvasToPagedPdf_invariants (P : PdfParams)
    (data : Option (ℕ → ℕ)) (hch : 1 ≤ P.canvasH) (hcw : 1 ≤ P.canvasW)
    (hfc : P.footerCount ≤ 2) :
    (∀ s ∈ appendCanvasToPagedPdfSlices P data,
      1 ≤ s.srcH ∧ s.srcH ≤ jsRound (contentHPx P)) ∧
    List.Chain' (fun s t => s.srcY - OVERLAP_PX ≤ t.srcY)
      (appendCanvasToPagedPdfSlices P data) := by
  have h := paginateFrom_inv P (allBandsOf data P.canvasW P.canvasH)
    (allBandsOf_wf data P hch) hch hcw hfc (pagesNeeded P) 0 0 le_rfl
    (by exact_mod_cast Nat.zero_le P.canvasH)
  exact ⟨h.1, h.2.2⟩

/-- Concrete instance of the C7 theorem on a 2×16 all-black raster. -/
theorem appendCanvasToPagedPdf_invariants_witness :
    (∀ s ∈ appendCanvasToPagedPdfSlices ⟨2, 16, true, 1, 0⟩ (some (fun _ => 0)),
      1 ≤ s.srcH ∧ s.srcH ≤ jsRound (contentHPx ⟨2, 16, true, 1, 0⟩)) ∧
    List.Chain' (fun s t => s.srcY - OVERLAP_PX ≤ t.srcY)
      (appendCanvasToPagedPdfSlices ⟨2, 16, true, 1, 0⟩ (some (fun _ => 0))) :=
  appendCanvasToPagedPdf_invariants ⟨2, 16, true, 1, 0⟩ (some (fun _ => 0))
    (by decide) (by decide) (by decide)

/-! #### The C7 raster: 85×560, white rows 100–248, black left column -/

/-- RGBA pixel data of an 85-column, 560-row raster: rows 100–248 are all
white; every other row is black in column 0 and white elsewhere. -/
def data85 : ℕ → ℕ := fun off =>
  let p := off / 4
  let r := p / 85
  let c := p % 85
  if 100 ≤ r ∧ r ≤ 248 then 255 else if c = 0 then 0 else 255

/-- The 85×560 A4 export of the C7 scenario. -/
def P85 : PdfParams := ⟨85, 560, true, 1, 0⟩

/-- The whitespace band at rows 100–248 found in `data85`. -/
def band85 : Band := ⟨100, 248, 174, 149⟩

theorem sampleCols_85 : sampleCols 85 4 =
    [0, 4, 8, 12, 16, 20, 24, 28, 32, 36, 40, 44, 48, 52, 56, 60, 64, 68,
      72, 76, 80, 84] := rfl

theorem data85_bAt (r c : ℕ) (hc : c < 85) :
    brightnessAt data85 ((r * 85 + c) * 4) =
      if 100 ≤ r ∧ r ≤ 248 then (255:ℚ) else if c = 0 then 0 else 255 := by
  have e0 : (r * 85 + c) * 4 / 4 = r * 85 + c := by omega
  have e1 : ((r * 85 + c) * 4 + 1) / 4 = r * 85 + c := by omega
  have e2 : ((r * 85 + c) * 4 + 2) / 4 = r * 85 + c := by omega
  have hr : (r * 85 + c) / 85 = r := by omega
  have hcc : (r * 85 + c) % 85 = c := by omega
  unfold brightnessAt data85
  simp only [e0, e1, e2, hr, hcc]
  by_cases h1 : 100 ≤ r ∧ r ≤ 248
  · simp only [if_pos h1]
    norm_num
  · simp only [if_neg h1]
    by_cases h2 : c = 0
    · simp only [if_pos h2]
      norm_num
    · simp only [if_neg h2]
      norm_num

theorem cols85_lt : ∀ c ∈ [0, 4, 8, 12, 16, 20, 24, 28, 32, 36, 40, 44, 48,
    52, 56, 60, 64, 68, 72, 76, 80, 84], c < 85 := by decide

theorem rowScore_data85_blank (r : ℕ) (hr : 100 ≤ r ∧ r ≤ 248) :
    rowScore data85 85 4 (5355/22) r = 255/22 := by
  have hmap : List.map
      (fun c => |brightnessAt data85 ((r * 85 + c) * 4) - (5355/22 : ℚ)|)
      [0, 4, 8, 12, 16, 20, 24, 28, 32, 36, 40, 44, 48, 52, 56, 60, 64, 68,
        72, 76, 80, 84] =
      List.map (fun _ => (255:ℚ) - 5355/22)
      [0, 4, 8, 12, 16, 20, 24, 28, 32, 36, 40, 44, 48, 52, 56, 60, 64, 68,
        72, 76, 80, 84] :=
    List.map_congr_left (fun c hc => by
      rw [data85_bAt r c (cols85_lt c hc), if_pos hr,
        abs_of_nonneg (by norm_num : (0:ℚ) ≤ 255 - 5355/22)])
  unfold rowScore
  rw [sampleCols_85, hmap]
  norm_num

theorem rowScore_data85_content (r : ℕ) (hr : ¬(100 ≤ r ∧ r ≤ 248)) :
    rowScore data85 85 4 (5355/22) r = 5355/242 := by
  have hmap : List.map
      (fun c => |brightnessAt data85 ((r * 85 + c) * 4) - (5355/22 : ℚ)|)
      [0, 4, 8, 12, 16, 20, 24, 28, 32, 36, 40, 44, 48, 52, 56, 60, 64, 68,
        72, 76, 80, 84] =
      List.map (fun c =>
        if c = 0 then -((0:ℚ) - 5355/22) else (255:ℚ) - 5355/22)
      [0, 4, 8, 12, 16, 20, 24, 28, 32, 36, 40, 44, 48, 52, 56, 60, 64, 68,
        72, 76, 80, 84] :=
    List.map_congr_left (fun c hc => by
      rw [data85_bAt r c (cols85_lt c hc), if_neg hr]
      by_cases h2 : c = 0
      · rw [if_pos h2, if_pos h2,
          abs_of_nonpos (by norm_num : (0:ℚ) - 5355/22 ≤ 0)]
      · rw [if_neg h2, if_neg h2,
          abs_of_nonneg (by norm_num : (0:ℚ) ≤ 255 - 5355/22)])
  unfold rowScore
  rw [sampleCols_85, hmap]
  norm_num

theorem edgeRowsOf_560 : edgeRowsOf 560 = 17 := by
  unfold edgeRowsOf
  rw [show jsRound ((560:ℕ) * (3/100) : ℚ) = 17 by unfold jsRound; norm_num]
  rfl

set_option maxRecDepth 8192 in
theorem data85_bg : detectBackgroundBrightness data85 85 560 4 = 5355/22 := by
  have hcontent : ∀ r ∈ [0, 1, 2, 3, 4, 5, 6, 7, 8, 9, 10, 11, 12, 13, 14,
      15, 16, 543, 544, 545, 546, 547, 548, 549, 550, 551, 552, 553, 554,
      555, 556, 557, 558, 559], ¬(100 ≤ r ∧ r ≤ 248) := by decide
  have hmap : List.map (fun r =>
      List.map (fun c => brightnessAt data85 ((r * 85 + c) * 4))
        [0, 4, 8, 12, 16, 20, 24, 28, 32, 36, 40, 44, 48, 52, 56, 60, 64,
          68, 72, 76, 80, 84])
      [0, 1, 2, 3, 4, 5, 6, 7, 8, 9, 10, 11, 12, 13, 14, 15, 16,
        543, 544, 545, 546, 547, 548, 549, 550, 551, 552, 553, 554, 555,
        556, 557, 558, 559] =
      List.map (fun _ =>
        List.map (fun c => if c = 0 then (0:ℚ) else 255)
        [0, 4, 8, 12, 16, 20, 24, 28, 32, 36, 40, 44, 48, 52, 56, 60, 64,
          68, 72, 76, 80, 84])
      [0, 1, 2, 3, 4, 5, 6, 7, 8, 9, 10, 11, 12, 13, 14, 15, 16,
        543, 544, 545, 546, 547, 548, 549, 550, 551, 552, 553, 554, 555,
        556, 557, 558, 559] :=
    List.map_congr_left (fun r hrr =>
      List.map_congr_left (fun c hc => by
        rw [data85_bAt r c (cols85_lt c hc), if_neg (hcontent r hrr)]))
  unfold detectBackgroundBrightness
  rw [edgeRowsOf_560]
  simp only []
  rw [sampleCols_85]
  rw [show List.range 17 ++ (List.range 17).map (560 - 17 + ·) =
      [0, 1, 2, 3, 4, 5, 6, 7, 8, 9, 10, 11, 12, 13, 14, 15, 16,
        543, 544, 545, 546, 547, 548, 549, 550, 551, 552, 553, 554, 555,
        556, 557, 558, 559] by decide]
  rw [hmap]
  norm_num

theorem data85_bands :
    findAllWhitespaceBands
      (fun r => rowScore data85 85 4 (detectBackgroundBrightness data85 85 560 4) r)
      0 (560 - 1) 12 2 = [band85] := by
  unfold findAllWhitespaceBands
  simp only [data85_bg, Nat.reduceSub, Nat.reduceAdd]
  have hB : ∀ r, 100 ≤ r ∧ r ≤ 248 →
      (r ≤ 559 ∧ rowScore data85 85 4 (5355/22) r < 12) := by
    intro r hr
    refine ⟨by omega, ?_⟩
    rw [rowScore_data85_blank r hr]
    norm_num
  have hN : ∀ r, ¬(100 ≤ r ∧ r ≤ 248) →
      ¬(r ≤ 559 ∧ rowScore data85 85 4 (5355/22) r < 12) := by
    intro r hr hcon
    rw [rowScore_data85_content r hr] at hcon
    have := hcon.2
    norm_num at this
  rw [show (561:ℕ) = 100 + 461 from rfl,
    bandScan_skipN _ 559 12 2 100 0 461 (fun i h1 h2 => hN i (by omega))]
  simp only [Nat.reduceAdd]
  rw [show (461:ℕ) = 460 + 1 from rfl,
    bandScan_enter _ 559 12 2 100 460 (hB 100 (by omega))]
  simp only [Nat.reduceAdd]
  rw [show (460:ℕ) = 148 + 312 from rfl,
    bandScan_stayN _ 559 12 2 148 101 312 100 (fun i h1 h2 => hB i (by omega))]
  simp only [Nat.reduceAdd]
  rw [show (312:ℕ) = 311 + 1 from rfl,
    bandScan_flush _ 559 12 2 249 311 100 (hN 249 (by omega))]
  rw [if_pos (by norm_num)]
  simp only [Nat.reduceAdd]
  rw [show (311:ℕ) = 310 + 1 from rfl,
    bandScan_skipN _ 559 12 2 310 250 1 (fun i h1 h2 => hN i (by omega))]
  simp only [Nat.reduceAdd]
  rw [show (1:ℕ) = 0 + 1 from rfl,
    bandScan_skip _ 559 12 2 560 0 (hN 560 (by omega))]
  rw [bandScan_zero]
  unfold band85
  norm_num

theorem P85_allBands :
    allBandsOf (some data85) P85.canvasW P85.canvasH = some [band85] := by
  show allBandsOf (some data85) 85 560 = some [band85]
  unfold allBandsOf
  simp only []
  rw [data85_bands]

theorem P85_contentHPx : contentHPx P85 = 4709/38 := by
  unfold contentHPx imageContentH contentH pageDimsH footerReservedMm
    scaleOf contentW pageDimsW imgWidthMm imgHeightMm pxToMm
    exportDpr jsRound P85
  norm_num [marginMm]

theorem P85_jsRound : jsRound (contentHPx P85) = 124 := by
  rw [P85_contentHPx]
  unfold jsRound
  norm_num

theorem P85_pagesNeeded : pagesNeeded P85 = 5 := by
  unfold pagesNeeded scaledHeight imgHeightMm scaleOf contentW imgWidthMm
    pxToMm exportDpr pageDimsW imageContentH contentH pageDimsH
    footerReservedMm jsRound P85
  norm_num [marginMm]
  rw [show (⌈(21280 / 4709 : ℚ)⌉ : ℤ) = 5 by rw [Int.ceil_eq_iff] <;> norm_num]
  rfl

theorem P85_nominal0 : nominalEndY P85 0 = 124 := by
  unfold nominalEndY sourceEndMm imgHeightMm scaleOf contentW imgWidthMm
    pxToMm exportDpr pageDimsW imageContentH contentH pageDimsH
    footerReservedMm jsRound P85
  norm_num [min_def, marginMm]

theorem P85_nominal1 : nominalEndY P85 1 = 248 := by
  unfold nominalEndY sourceEndMm imgHeightMm scaleOf contentW imgWidthMm
    pxToMm exportDpr pageDimsW imageContentH contentH pageDimsH
    footerReservedMm jsRound P85
  norm_num [min_def, marginMm]

theorem P85_nominal2 : nominalEndY P85 2 = 372 := by
  unfold nominalEndY sourceEndMm imgHeightMm scaleOf contentW imgWidthMm
    pxToMm exportDpr pageDimsW imageContentH contentH pageDimsH
    footerReservedMm jsRound P85
  norm_num [min_def, marginMm]

theorem P85_best0 : bestBandFor P85 (some [band85]) 0 0 = some band85 := by
  have h1 : pass1Go 0 124 (contentHPx P85) [band85] none = some band85 := by
    rw [pass1Go]
    rw [if_neg (by unfold band85; norm_num : ¬ (band85.endRow ≤ (0:ℤ))),
      if_neg (by unfold band85; norm_num : ¬ (band85.centre < ((124:ℤ):ℚ)))]
    simp only []
    rw [if_neg (by rw [P85_contentHPx]; unfold band85; norm_num :
      ¬ (band85.centre - ((124:ℤ):ℚ) > contentHPx P85 * (1/2)))]
    rfl
  unfold bestBandFor
  rw [P85_nominal0]
  simp [P85_pagesNeeded, h1]

theorem P85_floor0 : floorB P85 (some [band85]) 0 0 = false := by
  unfold floorB
  rw [refinedEndY0_of_band P85 (some [band85]) 0 0 band85 P85_best0,
    srcYpre_of_band P85 (some [band85]) 0 0 band85 P85_best0]
  rw [P85_contentHPx]
  unfold band85
  norm_num

theorem P85_step0 : pageStep P85 (some [band85]) 0 0 =
    (⟨0, 100, false, some band85⟩, 249) := by
  rw [pageStep_eq_band P85 (some [band85]) 0 0 band85 P85_floor0 P85_best0]
  rw [P85_jsRound]
  unfold band85
  norm_num

theorem P85_best1 : bestBandFor P85 (some [band85]) 1 249 = none := by
  have h1 : pass1Go 249 248 (contentHPx P85) [band85] none = none := by
    rw [pass1Go]
    rw [if_pos (by unfold band85; norm_num : band85.endRow ≤ (249:ℤ))]
    rfl
  have h2 : pass2Go 249 248 [band85] none = none := by
    rw [pass2Go]
    rw [if_pos (by unfold band85; norm_num : band85.endRow ≤ (249:ℤ))]
    rfl
  unfold bestBandFor
  rw [P85_nominal1]
  simp [P85_pagesNeeded, h1, h2]

theorem P85_uo1 : useOverlapB P85 (some [band85]) 1 249 = true := by
  unfold useOverlapB
  rw [P85_best1]
  simp [P85_pagesNeeded]

theorem P85_sy1 : srcYpre P85 (some [band85]) 1 249 = 189 := by
  unfold srcYpre
  rw [P85_uo1]
  norm_num [OVERLAP_PX]

theorem P85_floor1 : floorB P85 (some [band85]) 1 249 = false := by
  unfold floorB
  have hr : refinedEndY0 P85 (some [band85]) 1 249 = 248 := by
    unfold refinedEndY0
    rw [P85_best1, P85_nominal1]
  rw [hr, P85_sy1, P85_contentHPx]
  norm_num

theorem P85_step1 : pageStep P85 (some [band85]) 1 249 =
    (⟨189, 59, true, none⟩, 248) := by
  rw [pageStep_eq_noband P85 (some [band85]) 1 249 P85_floor1 P85_best1]
  rw [P85_jsRound, P85_nominal1, P85_sy1, P85_uo1]
  norm_num

theorem P85_best2 : bestBandFor P85 (some [band85]) 2 248 = none := by
  have h1 : pass1Go 248 372 (contentHPx P85) [band85] none = none := by
    rw [pass1Go]
    rw [if_pos (by unfold band85; norm_num : band85.endRow ≤ (248:ℤ))]
    rfl
  have h2 : pass2Go 248 372 [band85] none = none := by
    rw [pass2Go]
    rw [if_pos (by unfold band85; norm_num : band85.endRow ≤ (248:ℤ))]
    rfl
  unfold bestBandFor
  rw [P85_nominal2]
  simp [P85_pagesNeeded, h1, h2]

theorem P85_uo2 : useOverlapB P85 (some [band85]) 2 248 = true := by
  unfold useOverlapB
  rw [P85_best2]
  simp [P85_pagesNeeded]

theorem P85_sy2 : srcYpre P85 (some [band85]) 2 248 = 188 := by
  unfold srcYpre
  rw [P85_uo2]
  norm_num [OVERLAP_PX]

theorem P85_floor2 : floorB P85 (some [band85]) 2 248 = false := by
  unfold floorB
  have hr : refinedEndY0 P85 (some [band85]) 2 248 = 372 := by
    unfold refinedEndY0
    rw [P85_best2, P85_nominal2]
  rw [hr, P85_sy2, P85_contentHPx]
  norm_num

theorem P85_step2 : pageStep P85 (some [band85]) 2 248 =
    (⟨188, 124, true, none⟩, 372) := by
  rw [pageStep_eq_noband P85 (some [band85]) 2 248 P85_floor2 P85_best2]
  rw [P85_jsRound, P85_nominal2, P85_sy2, P85_uo2]
  norm_num

theorem P85_slices : appendCanvasToPagedPdfSlices P85 (some data85) =
    ⟨0, 100, false, some band85⟩ :: ⟨189, 59, true, none⟩ ::
      ⟨188, 124, true, none⟩ :: paginateFrom P85 (some [band85]) 2 3 372 := by
  unfold appendCanvasToPagedPdfSlices appendCanvasSlices
  rw [P85_allBands, P85_pagesNeeded]
  rw [show (5:ℕ) = 4 + 1 from rfl, paginateFrom, P85_step0]
  simp only [Nat.reduceAdd]
  rw [show (4:ℕ) = 3 + 1 from rfl, paginateFrom, P85_step1]
  simp only [Nat.reduceAdd]
  rw [show (3:ℕ) = 2 + 1 from rfl, paginateFrom, P85_step2]

/-- Counterexample to the literal C7 claim, from the concrete 85×560 raster
`data85` (whitespace band at rows 100–248): the first three emitted slices
are (srcY, srcH) = (0, 100), (189, 59), (188, 124), so srcY is NOT
monotone (189 then 188), the gap between slice 1's end (row 100) and slice
2's start (row 189) is 89 > OVERLAP_PX, and slice 3's height 124 exceeds
contentHPx = 4709/38 ≈ 123.9. -/
theorem paginator_invariants_cex :
    allBandsOf (some data85) P85.canvasW P85.canvasH = some [band85] ∧
    ((appendCanvasToPagedPdfSlices P85 (some data85)).map
      (fun s => (s.srcY, s.srcH))).take 3 = [(0, 100), (189, 59), (188, 124)] ∧
    ¬ List.Chain' (fun s t => s.srcY ≤ t.srcY)
      (appendCanvasToPagedPdfSlices P85 (some data85)) ∧
    ¬ List.Chain' (fun s t => t.srcY ≤ s.srcY + s.srcH + OVERLAP_PX)
      (appendCanvasToPagedPdfSlices P85 (some data85)) ∧
    ¬ (∀ s ∈ appendCanvasToPagedPdfSlices P85 (some data85),
        (s.srcH : ℚ) ≤ contentHPx P85) := by
  refine ⟨P85_allBands, ?_, ?_, ?_, ?_⟩
  · rw [P85_slices]
    rfl
  · rw [P85_slices]
    intro hch
    have h12 := (List.chain'_cons.mp (List.chain'_cons.mp hch).2).1
    dsimp only at h12
    omega
  · rw [P85_slices]
    intro hch
    have h01 := (List.chain'_cons.mp hch).1
    dsimp only at h01
    have ho : OVERLAP_PX = (60:ℤ) := rfl
    omega
  · rw [P85_slices]
    intro hall
    have h2 := hall ⟨188, 124, true, none⟩ (by simp)
    rw [P85_contentHPx] at h2
    dsimp only at h2
    norm_num at h2

end FullSnap
